import Mathlib

/-!
Verification development for the XLA interpreter layer
(`jax/interpreters/xla.py`): the lazy-expression sub-language and its two
interpreters, the lowering-rule dispatch, the replica/axis-group
computation, and the device-value lifecycle.

Machine integers that matter (the staged `Eye`/`Tri` construction works in
`uint32`) are modelled as `Nat` with explicit `% 2^32`; numpy arrays are
modelled as a dtype tag, a shape, and a row-major indexing function; Python
`assert` failures and attribute errors are modelled with `Option`.
-/

set_option maxHeartbeats 1000000

namespace XlaSpec

/-- Dtype tags.  The development never interprets a tag; both interpreters
are shown to thread the same tag, which is all the spec's dtype claims
need. -/
inductive DType where
  | float32
  | float64
  | int32
  | int64
  | uint32
  | boolTag
  deriving DecidableEq, Repr

/-- A host (`numpy`) array or a staged (XLA) array value: dtype, shape, and
the element at each multi-index.  Only indices pointwise below `shape`
are meaningful. -/
structure Tensor (α : Type) where
  dtype : DType
  shape : List Nat
  data : List Nat → α

/-- A multi-index is valid for a shape when it is pointwise below it
(which also forces equal lengths). -/
def Valid (m shape : List Nat) : Prop := List.Forall₂ (· < ·) m shape

/-- Two tensors agree: same dtype, same shape, same elements at every
valid multi-index. -/
def TensorEqOn {α : Type} (t u : Tensor α) : Prop :=
  t.dtype = u.dtype ∧ t.shape = u.shape ∧ ∀ m, Valid m t.shape → t.data m = u.data m

/-- Row-major linearisation of a multi-index (C order, as numpy uses). -/
def ravel : List Nat → List Nat → Nat
  | _ :: ss, a :: ms => a * ss.prod + ravel ss ms
  | _, _ => 0

/-- Inverse of `ravel`: the row-major multi-index of a flat position. -/
def unravel : List Nat → Nat → List Nat
  | [], _ => []
  | _ :: ds, i => (i / ds.prod) :: unravel ds (i % ds.prod)

/-- Index of the first occurrence of `a` in `l` (`l.length`-past-the-end
when absent); the inverse-permutation lookup both transpose models use. -/
def posOf {α : Type} [DecidableEq α] (a : α) : List α → Nat
  | [] => 0
  | b :: t => if b = a then 0 else posOf a t + 1

/-! ### Models of the numpy operations used by `eval_lazy_expr` -/

/-- `onp.transpose(x, perm)`: output axis `i` is input axis `perm i`, so the
input index places `m i` at axis `perm i`; equivalently input axis `k`
reads `m (perm.indexOf k)`. -/
def npTranspose {α : Type} (t : Tensor α) (perm : List Nat) : Tensor α :=
  ⟨t.dtype, perm.map (fun i => t.shape.getD i 0),
   fun m => t.data ((List.range t.shape.length).map (fun k => m.getD (posOf k perm) 0))⟩

/-- `onp.reshape(x, s)`: reinterpret the row-major element sequence. -/
def npReshape {α : Type} (t : Tensor α) (s : List Nat) : Tensor α :=
  ⟨t.dtype, s, fun m => t.data (unravel t.shape (ravel s m))⟩

/-- `onp.broadcast_to(x, s)` in the equal-rank case used by
`eval_lazy_expr` (the operand was first reshaped to the same rank as `s`):
size-1 input axes are pinned to index 0 and stretched. -/
def npBroadcastTo {α : Type} (t : Tensor α) (s : List Nat) : Tensor α :=
  ⟨t.dtype, s, fun m => t.data (List.zipWith (fun ts mi => if ts = 1 then 0 else mi) t.shape m)⟩

/-- `onp.arange(size, dtype=dtype)` (xla.py line 106). -/
def npArange (d : DType) (n : Nat) : Tensor Int :=
  ⟨d, [n], fun m => ((m.getD 0 0 : Nat) : Int)⟩

/-- `onp.tri(N, M, dtype=dtype, k=offset)` (xla.py line 113): one where
`col - row ≤ offset`, zero elsewhere. -/
def npTri (d : DType) (n m : Nat) (k : Int) : Tensor Int :=
  ⟨d, [n, m], fun idx => if ((idx.getD 1 0 : Nat) : Int) - ((idx.getD 0 0 : Nat) : Int) ≤ k then 1 else 0⟩

/-! ### Models of the XLA graph operations used by `stage_lazy_expr`
(each staged operation is given its documented array semantics). -/

/-- The `uint32` modulus. -/
def u32size : Nat := 2 ^ 32

/-- `onp.array(offset, onp.uint32)`: Python int converted to `uint32`
(negative values wrap). -/
def intToU32 (k : Int) : Nat := (k % (u32size : Int)).toNat

/-- `c.Iota(dtype, size)` (xla.py line 139). -/
def xlaIota (d : DType) (n : Nat) : Tensor Int :=
  ⟨d, [n], fun m => ((m.getD 0 0 : Nat) : Int)⟩

/-- `c.BroadcastedIota(onp.uint32, shape, dim)`: the index along `dim`, as a
`uint32`. -/
def xlaBroadcastedIotaU32 (sh : List Nat) (dim : Nat) : Tensor Nat :=
  ⟨.uint32, sh, fun m => m.getD dim 0 % u32size⟩

/-- `c.Add(t, c.Constant(onp.array(offset, onp.uint32)))`: elementwise
`uint32` addition of a rank-0 constant (implicit scalar broadcast). -/
def xlaAddU32Scalar (t : Tensor Nat) (c : Nat) : Tensor Nat :=
  ⟨.uint32, t.shape, fun m => (t.data m + c) % u32size⟩

/-- `c.Ge(a, b)` on `uint32` operands. -/
def xlaGeU32 (a b : Tensor Nat) : Tensor Bool :=
  ⟨.boolTag, a.shape, fun m => decide (b.data m ≤ a.data m)⟩

/-- `c.ConvertElementType(pred, dtype)`: booleans to 0/1 in `dtype`. -/
def xlaConvertBool (t : Tensor Bool) (d : DType) : Tensor Int :=
  ⟨d, t.shape, fun m => if t.data m then 1 else 0⟩

/-- `c.Transpose(x, perm)` (xla.py line 160): same semantics as
`onp.transpose`. -/
def xlaTranspose {α : Type} (t : Tensor α) (perm : List Nat) : Tensor α :=
  ⟨t.dtype, perm.map (fun i => t.shape.getD i 0),
   fun m => t.data ((List.range t.shape.length).map (fun k => m.getD (posOf k perm) 0))⟩

/-- `c.BroadcastInDim(x, shape, bcast_dims)` (xla.py line 162): operand axis
`j` maps to output axis `bcast_dims j`; size-1 operand axes are pinned to
index 0. -/
def xlaBroadcastInDim {α : Type} (t : Tensor α) (s : List Nat) (bd : List Nat) : Tensor α :=
  ⟨t.dtype, s, fun m => t.data (List.zipWith (fun ts di => if ts = 1 then 0 else m.getD di 0) t.shape bd)⟩

/-! ### The lazy sub-language (xla.py lines 58-95) -/

/-- The four source kinds of a `LazyExpr` (xla.py lines 61-64).  Note the
source defines `LazyEye = namedtuple('Eye', ['dtype', 'shape', 'offset'])`:
the `Eye` record has **no** `size` field. -/
inductive LazyInput where
  | arrayVar
  | iota (dtype : DType) (size : Nat)
  | eye (dtype : DType) (shape : List Nat) (offset : Int)
  | tri (dtype : DType) (shape : List Nat) (offset : Int)
  deriving DecidableEq

/-- `LazyExpr = namedtuple('LazyExpr', ['input', 'shape', 'dims'])`
(xla.py line 60).  `dims` holds, per output axis, either the source axis it
reads (`some k`) or the broadcast sentinel `None` (`none`). -/
structure LazyExpr where
  input : LazyInput
  shape : List Nat
  dims : List (Option Nat)
  deriving DecidableEq

/-- `lazy_array(shape)` (xla.py line 66). -/
def lazy_array (shape : List Nat) : LazyExpr :=
  ⟨.arrayVar, shape, (List.range shape.length).map some⟩

/-- `lazy_iota(dtype, size)` (xla.py line 69). -/
def lazy_iota (d : DType) (size : Nat) : LazyExpr :=
  ⟨.iota d size, [size], [some 0]⟩

/-- `lazy_eye(dtype, shape, offset)` (xla.py line 72); the `assert
len(shape) == 2` is modelled by `Option`. -/
def lazy_eye (d : DType) (shape : List Nat) (offset : Int) : Option LazyExpr :=
  if shape.length = 2 then some ⟨.eye d shape offset, shape, [some 0, some 1]⟩ else none

/-- `lazy_tri(dtype, shape, offset)` (xla.py line 76). -/
def lazy_tri (d : DType) (shape : List Nat) (offset : Int) : Option LazyExpr :=
  if shape.length = 2 then some ⟨.tri d shape offset, shape, [some 0, some 1]⟩ else none

/-- `lazy_broadcast(lazy_expr, shape, broadcast_dimensions)` (xla.py line
80): start from `[None] * len(shape)` and set `new_dims[d] = dims[i]` for
each `i, d` in `enumerate(broadcast_dimensions)`. -/
def lazy_broadcast (e : LazyExpr) (shape : List Nat) (bd : List Nat) : LazyExpr :=
  ⟨e.input, shape,
   (bd.zip e.dims).foldl (fun acc p => acc.set p.1 p.2) (List.replicate shape.length none)⟩

/-- `lazy_transpose(lazy_expr, perm)` (xla.py line 86). -/
def lazy_transpose (e : LazyExpr) (perm : List Nat) : LazyExpr :=
  ⟨e.input, perm.map (fun i => e.shape.getD i 0), perm.map (fun i => e.dims.getD i none)⟩

/-- The generator `tuple(None if d == 1 else next(dims) for d in new_sizes)`
of `lazy_reshape` (xla.py line 94): walk `new_sizes`, emitting the
broadcast sentinel at size-1 targets and the next queued dim otherwise. -/
def takeDims : List (Option Nat) → List Nat → List (Option Nat)
  | _, [] => []
  | ds, n :: ns =>
    if n = 1 then none :: takeDims ds ns
    else
      match ds with
      | [] => []
      | d :: rest => d :: takeDims rest ns

/-- `lazy_reshape(lazy_expr, new_sizes)` (xla.py line 91); the
`assert tuple(shape) == tuple(d for d in new_sizes if d != 1)` is modelled
by `Option`. -/
def lazy_reshape (e : LazyExpr) (new_sizes : List Nat) : Option LazyExpr :=
  if e.shape = new_sizes.filter (fun d => d != 1) then
    some ⟨e.input, new_sizes, takeDims e.dims new_sizes⟩
  else none

/-! ### The eager interpreter `eval_lazy_expr` (xla.py lines 97-125) -/

/-- `in_shape = [1 if d is None else s for d, s in zip(dims, shape)]`
(xla.py line 122). -/
def inShape (dims : List (Option Nat)) (shape : List Nat) : List Nat :=
  List.zipWith (fun d s => match d with | none => 1 | some _ => s) dims shape

/-- The reindexing tail of `eval_lazy_expr` (xla.py lines 117-125):
transpose by the non-sentinel dims unless they are already the identity,
then, if the shape still differs, reshape size-1 axes in at the sentinel
positions and broadcast. -/
def eval_reindex (shape : List Nat) (dims : List (Option Nat)) (x : Tensor Int) : Tensor Int :=
  let perm := dims.filterMap id
  let x1 := if perm = List.range perm.length then x else npTranspose x perm
  if shape = x1.shape then x1
  else npBroadcastTo (npReshape x1 (inShape dims shape)) shape

/-- `eval_lazy_expr(lazy_expr, x)` (xla.py lines 97-125).  The `ArrayVar`
case asserts a base array is supplied, the others assert it is not.  The
`Eye` case reads `input_.size` (line 109) — a field the `Eye` namedtuple
does not have — so it raises `AttributeError` for every input; it is
modelled as `none`. -/
def eval_lazy_expr (e : LazyExpr) (x : Option (Tensor Int)) : Option (Tensor Int) :=
  let base : Option (Tensor Int) :=
    match e.input, x with
    | .arrayVar, some t => some t
    | .arrayVar, none => none
    | .iota d n, none => some (npArange d n)
    | .eye _ _ _, _ => none
    | .tri d sh k, none =>
      match sh with
      | [n, m] => some (npTri d n m k)
      | _ => none
    | _, some _ => none
  base.map (fun b => eval_reindex e.shape e.dims b)

/-! ### The staging interpreter `stage_lazy_expr` (xla.py lines 127-166) -/

/-- `unzip2((i, d) for i, d in enumerate(dims) if d is not None)`
(xla.py line 158), with the running `enumerate` index made explicit. -/
def enumNonNone : Nat → List (Option Nat) → List (Nat × Nat)
  | _, [] => []
  | i, none :: ds => enumNonNone (i + 1) ds
  | i, some d :: ds => (i, d) :: enumNonNone (i + 1) ds

/-- The reindexing tail of `stage_lazy_expr` (xla.py lines 157-166). -/
def stage_reindex (shape : List Nat) (dims : List (Option Nat)) (x : Tensor Int) : Tensor Int :=
  let pairs := enumNonNone 0 dims
  let bcast_dims := pairs.map Prod.fst
  let perm := pairs.map Prod.snd
  let x1 := if perm = List.range perm.length then x else xlaTranspose x perm
  if shape = x1.shape then x1 else xlaBroadcastInDim x1 shape bcast_dims

/-- `stage_lazy_expr(c, lazy_expr, x)` (xla.py lines 127-166).  When
`lazy_expr is None` the staged node `x` passes through.  The `Eye` case
reads `input_.size` (line 142), a field the `Eye` namedtuple does not
have, so it raises `AttributeError`; it is modelled as `none`.  The `Tri`
case builds `Ge(Add(BroadcastedIota(uint32, (N,M), 0), Constant(offset as
uint32)), BroadcastedIota(uint32, (N,M), 1))` then converts to `dtype`
(lines 147-153). -/
def stage_lazy_expr (e? : Option LazyExpr) (x : Option (Tensor Int)) : Option (Tensor Int) :=
  match e? with
  | none => x
  | some e =>
    let base : Option (Tensor Int) :=
      match e.input, x with
      | .arrayVar, some t => some t
      | .arrayVar, none => none
      | .iota d n, none => some (xlaIota d n)
      | .eye _ _ _, _ => none
      | .tri d sh k, none =>
        match sh with
        | [n, m] =>
          some (xlaConvertBool
            (xlaGeU32
              (xlaAddU32Scalar (xlaBroadcastedIotaU32 [n, m] 0) (intToU32 k))
              (xlaBroadcastedIotaU32 [n, m] 1)) d)
        | _ => none
      | _, some _ => none
    base.map (fun b => stage_reindex e.shape e.dims b)

/-! ### Row-major index arithmetic -/

theorem valid_length {m shape : List Nat} (h : Valid m shape) : m.length = shape.length :=
  List.Forall₂.length_eq h

theorem unravel_length (sh : List Nat) (i : Nat) : (unravel sh i).length = sh.length := by
  induction sh generalizing i with
  | nil => rfl
  | cons s ss ih => simp [unravel, ih]

theorem ravel_lt {m sh : List Nat} (h : Valid m sh) : ravel sh m < sh.prod := by
  induction h with
  | nil => simp [ravel]
  | @cons a s ms ss ha _ ih =>
    have hP : ravel ss ms < ss.prod := ih
    calc ravel (s :: ss) (a :: ms) = a * ss.prod + ravel ss ms := rfl
      _ < a * ss.prod + ss.prod := by omega
      _ = (a + 1) * ss.prod := by ring
      _ ≤ s * ss.prod := Nat.mul_le_mul_right _ (by omega)
      _ = (s :: ss).prod := by simp [List.prod_cons]

theorem unravel_ravel {m sh : List Nat} (h : Valid m sh) : unravel sh (ravel sh m) = m := by
  induction h with
  | nil => rfl
  | @cons a s ms ss _ htail ih =>
    have hr : ravel ss ms < ss.prod := ravel_lt htail
    have hP : 0 < ss.prod := by omega
    have hdiv : (a * ss.prod + ravel ss ms) / ss.prod = a := by
      rw [Nat.add_comm, Nat.add_mul_div_right _ _ hP, Nat.div_eq_of_lt hr, Nat.zero_add]
    have hmod : (a * ss.prod + ravel ss ms) % ss.prod = ravel ss ms := by
      rw [Nat.add_comm, Nat.add_mul_mod_self_right, Nat.mod_eq_of_lt hr]
    show unravel (s :: ss) (a * ss.prod + ravel ss ms) = a :: ms
    simp [unravel, hdiv, hmod, ih]

theorem ravel_unravel {sh : List Nat} {i : Nat} (h : i < sh.prod) :
    ravel sh (unravel sh i) = i := by
  induction sh generalizing i with
  | nil => simp [List.prod_nil] at h; simp [unravel, ravel, h]
  | cons s ss ih =>
    by_cases hP : ss.prod = 0
    · rw [List.prod_cons, hP, Nat.mul_zero] at h; omega
    · have hP' : 0 < ss.prod := Nat.pos_of_ne_zero hP
      have hlt : i % ss.prod < ss.prod := Nat.mod_lt _ hP'
      show (i / ss.prod) * ss.prod + ravel ss (unravel ss (i % ss.prod)) = i
      rw [ih hlt, Nat.mul_comm, Nat.div_add_mod]

theorem unravel_valid {sh : List Nat} {i : Nat} (h : i < sh.prod) :
    Valid (unravel sh i) sh := by
  induction sh generalizing i with
  | nil => exact List.Forall₂.nil
  | cons s ss ih =>
    by_cases hP : ss.prod = 0
    · rw [List.prod_cons, hP, Nat.mul_zero] at h; omega
    · have hP' : 0 < ss.prod := Nat.pos_of_ne_zero hP
      refine List.Forall₂.cons ?_ (ih (Nat.mod_lt _ hP'))
      have : i < s * ss.prod := by simpa [List.prod_cons] using h
      exact (Nat.div_lt_iff_lt_mul hP').2 (by omega)

theorem unravel_append {A B : List Nat} {s t : Nat} (hs : s < A.prod) (ht : t < B.prod) :
    unravel (A ++ B) (s * B.prod + t) = unravel A s ++ unravel B t := by
  induction A generalizing s with
  | nil =>
    have : s = 0 := by simpa [List.prod_nil] using hs
    subst this; simp [unravel]
  | cons a A' ih =>
    have hPB : 0 < B.prod := by omega
    by_cases hPA : A'.prod = 0
    · rw [List.prod_cons, hPA, Nat.mul_zero] at hs; omega
    · have hPA' : 0 < A'.prod := Nat.pos_of_ne_zero hPA
      have hsm : s % A'.prod < A'.prod := Nat.mod_lt _ hPA'
      have hkey : s * B.prod + t
          = ((s % A'.prod) * B.prod + t) + (s / A'.prod) * (A'.prod * B.prod) := by
        conv_lhs => rw [← Nat.div_add_mod s A'.prod]
        ring
      have hrem : (s % A'.prod) * B.prod + t < A'.prod * B.prod := by
        calc (s % A'.prod) * B.prod + t < (s % A'.prod) * B.prod + B.prod := by omega
          _ = (s % A'.prod + 1) * B.prod := by ring
          _ ≤ A'.prod * B.prod := Nat.mul_le_mul_right _ (by omega)
      have hprodAB : ((A' ++ B).prod) = A'.prod * B.prod := List.prod_append
      have hdiv : (s * B.prod + t) / (A' ++ B).prod = s / A'.prod := by
        rw [hprodAB, hkey, Nat.add_mul_div_right _ _ (Nat.mul_pos hPA' hPB),
          Nat.div_eq_of_lt hrem, Nat.zero_add]
      have hmod : (s * B.prod + t) % (A' ++ B).prod = (s % A'.prod) * B.prod + t := by
        rw [hprodAB, hkey, Nat.add_mul_mod_self_right, Nat.mod_eq_of_lt hrem]
      show (s * B.prod + t) / (A' ++ B).prod
        :: unravel (A' ++ B) ((s * B.prod + t) % (A' ++ B).prod)
        = s / A'.prod :: (unravel A' (s % A'.prod) ++ unravel B t)
      rw [hdiv, hmod, ih hsm]

/-! ### Selection along the non-sentinel positions of `dims` -/

/-- The entries of `l` at the positions where `dims` carries a source axis
(the physical axes that survive into the transposed operand). -/
def selSome {α : Type} (dims : List (Option Nat)) (l : List α) : List α :=
  (dims.zip l).filterMap (fun p => p.1.map (fun _ => p.2))

theorem selSome_nil_left {α : Type} (l : List α) : selSome [] l = [] := rfl

theorem selSome_nil_right {α : Type} (dims : List (Option Nat)) :
    selSome (α := α) dims [] = [] := by cases dims <;> rfl

theorem selSome_cons_none {α : Type} (ds : List (Option Nat)) (a : α) (l : List α) :
    selSome (none :: ds) (a :: l) = selSome ds l := rfl

theorem selSome_cons_some {α : Type} (k : Nat) (ds : List (Option Nat)) (a : α) (l : List α) :
    selSome (some k :: ds) (a :: l) = a :: selSome ds l := rfl

theorem inShape_cons_none (ds : List (Option Nat)) (s : Nat) (ss : List Nat) :
    inShape (none :: ds) (s :: ss) = 1 :: inShape ds ss := rfl

theorem inShape_cons_some (k : Nat) (ds : List (Option Nat)) (s : Nat) (ss : List Nat) :
    inShape (some k :: ds) (s :: ss) = s :: inShape ds ss := rfl

theorem ravel_cons (s : Nat) (ss : List Nat) (a : Nat) (ms : List Nat) :
    ravel (s :: ss) (a :: ms) = a * ss.prod + ravel ss ms := rfl

theorem prod_inShape (dims : List (Option Nat)) (sh : List Nat) :
    (inShape dims sh).prod = (selSome dims sh).prod := by
  induction dims generalizing sh with
  | nil => rfl
  | cons d ds ih =>
    cases sh with
    | nil => cases d <;> rfl
    | cons s ss =>
      cases d with
      | none =>
        rw [inShape_cons_none, selSome_cons_none, List.prod_cons, Nat.one_mul, ih]
      | some k =>
        rw [inShape_cons_some, selSome_cons_some, List.prod_cons, List.prod_cons, ih]

theorem valid_selSome {α : Type} {R : α → α → Prop} {dims : List (Option Nat)}
    {m sh : List α} (h : List.Forall₂ R m sh) :
    List.Forall₂ R (selSome dims m) (selSome dims sh) := by
  induction h generalizing dims with
  | nil => simp only [selSome_nil_right]; exact List.Forall₂.nil
  | @cons a s ms ss ha _ ih =>
    cases dims with
    | nil => exact List.Forall₂.nil
    | cons d ds =>
      cases d with
      | none => rw [selSome_cons_none, selSome_cons_none]; exact ih
      | some k =>
        rw [selSome_cons_some, selSome_cons_some]
        exact List.Forall₂.cons ha ih

/-- Lemma for the eager broadcast step: the row-major position of the
masked index inside `in_shape` equals the row-major position of the
selected sub-index inside the physical (selected) shape. -/
theorem ravel_inShape_mask {dims : List (Option Nat)} {m sh : List Nat}
    (hv : Valid m sh) :
    ravel (inShape dims sh) (List.zipWith (fun ts mi => if ts = 1 then 0 else mi) (inShape dims sh) m)
      = ravel (selSome dims sh) (selSome dims m) := by
  induction hv generalizing dims with
  | nil => cases dims <;> rfl
  | @cons a s ms ss ha _ ih =>
    cases dims with
    | nil => rfl
    | cons d ds =>
      cases d with
      | none =>
        rw [selSome_cons_none, selSome_cons_none, inShape_cons_none,
          List.zipWith_cons_cons, ravel_cons]
        have h1 : ((if (1 : Nat) = 1 then 0 else a) : Nat) = 0 := by rw [if_pos rfl]
        rw [h1, Nat.zero_mul, Nat.zero_add, @ih ds]
      | some k =>
        rw [selSome_cons_some, selSome_cons_some, inShape_cons_some,
          List.zipWith_cons_cons, ravel_cons, ravel_cons]
        have hhead : (if s = 1 then 0 else a) = a := by
          by_cases hs : s = 1
          · subst hs; rw [if_pos rfl]; omega
          · rw [if_neg hs]
        rw [hhead, prod_inShape, @ih ds]

theorem enumNonNone_snd (k : Nat) (dims : List (Option Nat)) :
    (enumNonNone k dims).map Prod.snd = dims.filterMap id := by
  induction dims generalizing k with
  | nil => rfl
  | cons d ds ih =>
    cases d with
    | none => simpa [enumNonNone] using ih (k + 1)
    | some v => simpa [enumNonNone] using ih (k + 1)

/-- Lemma for the staged broadcast step: reading the output index `M` back
through `bcast_dims` (the positions of the non-sentinel dims) produces
exactly the selected sub-index of `M`. -/
theorem zipWith_selSome_enum {dims : List (Option Nat)} {m sh : List Nat} {M : List Nat}
    {k : Nat} (hdrop : M.drop k = m) (hv : Valid m sh) :
    List.zipWith (fun ts di => if ts = 1 then 0 else M.getD di 0)
      (selSome dims sh) ((enumNonNone k dims).map Prod.fst)
      = selSome dims m := by
  induction dims generalizing m sh k with
  | nil => simp [selSome_nil_left, enumNonNone]
  | cons d ds ih =>
    cases hv with
    | nil =>
      simp only [selSome_nil_right]
      rfl
    | @cons a s ms ss ha htail =>
      cases d with
      | none =>
        rw [selSome_cons_none, selSome_cons_none]
        have hdrop' : M.drop (k + 1) = ms := by
          have h2 : M.drop (k + 1) = (M.drop k).drop 1 := by
            rw [List.drop_drop]
          rw [h2, hdrop, List.drop_one, List.tail_cons]
        exact ih hdrop' htail
      | some v =>
        rw [selSome_cons_some, selSome_cons_some]
        have hdrop' : M.drop (k + 1) = ms := by
          have h2 : M.drop (k + 1) = (M.drop k).drop 1 := by
            rw [List.drop_drop]
          rw [h2, hdrop, List.drop_one, List.tail_cons]
        have hgetk : M.getD k 0 = a := by
          have h1 := List.head?_drop M k
          rw [hdrop, List.head?_cons] at h1
          rw [List.getD_eq_getElem?_getD, ← h1]
          rfl
        have hmapfst : (enumNonNone k (some v :: ds)).map Prod.fst
            = k :: (enumNonNone (k + 1) ds).map Prod.fst := rfl
        rw [hmapfst, List.zipWith_cons_cons]
        have hhead : (if s = 1 then 0 else M.getD k 0) = a := by
          by_cases hs : s = 1
          · subst hs; rw [if_pos rfl]; omega
          · rw [if_neg hs, hgetk]
        rw [hhead, ih hdrop' htail]

/-! ### indexOf machinery -/

theorem filterMap_id_cons_none (ds : List (Option Nat)) :
    (none :: ds).filterMap id = ds.filterMap id := rfl

theorem filterMap_id_cons_some (v : Nat) (ds : List (Option Nat)) :
    ((some v) :: ds).filterMap id = v :: ds.filterMap id := rfl

theorem count_some_filterMap (dims : List (Option Nat)) (k : Nat) :
    (dims.filterMap id).count k = dims.count (some k) := by
  induction dims with
  | nil => rfl
  | cons d ds ih =>
    cases d with
    | none =>
      rw [filterMap_id_cons_none, List.count_cons, ih]
      simp
    | some v =>
      rw [filterMap_id_cons_some, List.count_cons, List.count_cons, ih]
      by_cases hv : v = k
      · subst hv; simp
      · have h1 : (v == k) = false := by simp [hv]
        have h2 : ((some v : Option Nat) == some k) = false := by simp [hv]
        rw [h1, h2]

theorem posOf_cons_self {α : Type} [DecidableEq α] (a : α) (t : List α) :
    posOf a (a :: t) = 0 := by
  simp [posOf]

theorem posOf_cons_ne {α : Type} [DecidableEq α] {b a : α} (h : b ≠ a) (t : List α) :
    posOf a (b :: t) = posOf a t + 1 := by
  simp [posOf, h]

theorem posOf_eq_of_count_one {α : Type} [BEq α] [LawfulBEq α] [DecidableEq α]
    {l : List α} {a : α} {j : Nat}
    (hc : l.count a = 1) (hj : l.get? j = some a) : posOf a l = j := by
  induction l generalizing j with
  | nil => cases hj
  | cons b t ih =>
    by_cases hb : b = a
    · subst hb
      have hct : t.count b = 0 := by
        rw [List.count_cons] at hc; simp at hc; omega
      have hnot : b ∉ t := List.count_eq_zero.1 hct
      cases j with
      | zero => exact posOf_cons_self b t
      | succ j' =>
        exfalso
        exact hnot (List.get?_mem hj)
    · have hct : t.count a = 1 := by
        rw [List.count_cons] at hc
        have : ((b == a) = true) = False := by simp [hb]
        simp only [this, if_false] at hc; omega
      cases j with
      | zero =>
        exfalso
        have : b = a := by injection hj
        exact hb this
      | succ j' =>
        have hj' : t.get? j' = some a := hj
        rw [posOf_cons_ne hb, ih hct hj']

theorem posOf_lt_length {α : Type} [DecidableEq α] {a : α} {l : List α} (h : a ∈ l) :
    posOf a l < l.length := by
  induction l with
  | nil => cases h
  | cons b t ih =>
    by_cases hb : b = a
    · subst hb; rw [posOf_cons_self]; simp
    · rw [posOf_cons_ne hb]
      have hmem : a ∈ t := by
        rcases List.mem_cons.1 h with h1 | h1
        · exact absurd h1.symm hb
        · exact h1
      have := ih hmem
      simp only [List.length_cons]
      omega

theorem getD_posOf {α : Type} [DecidableEq α] {a : α} {l : List α} (h : a ∈ l) (d : α) :
    l.getD (posOf a l) d = a := by
  induction l with
  | nil => cases h
  | cons b t ih =>
    by_cases hb : b = a
    · subst hb; rw [posOf_cons_self, List.getD_cons_zero]
    · rw [posOf_cons_ne hb, List.getD_cons_succ]
      apply ih
      rcases List.mem_cons.1 h with h1 | h1
      · exact absurd h1.symm hb
      · exact h1

theorem get?_posOf {α : Type} [DecidableEq α] {a : α} {l : List α} (h : a ∈ l) :
    l.get? (posOf a l) = some a := by
  have hlt := posOf_lt_length h
  rw [List.get?_eq_get hlt, List.get_eq_getElem, ← List.getD_eq_getElem l a hlt,
    getD_posOf h a]

theorem map_getD_range {α : Type} (l : List α) (d : α) :
    (List.range l.length).map (fun i => l.getD i d) = l := by
  apply List.ext_get
  · simp
  · intro i h1 h2
    simp only [List.get_eq_getElem, List.getElem_map, List.getElem_range]
    exact List.getD_eq_getElem l d h2

theorem getD_map_range {α : Type} {n j : Nat} (hj : j < n) (f : Nat → α) (d : α) :
    ((List.range n).map f).getD j d = f j := by
  rw [List.getD_eq_getElem?_getD, List.getElem?_map, List.getElem?_range hj]
  rfl

theorem valid_getD {m sh : List Nat} (h : Valid m sh) {i : Nat} (hi : i < sh.length) :
    m.getD i 0 < sh.getD i 0 := by
  rcases List.forall₂_iff_get.1 h with ⟨hlen, hget⟩
  have hi' : i < m.length := by omega
  rw [List.getD_eq_getElem m 0 hi', List.getD_eq_getElem sh 0 hi]
  simpa using hget i hi' hi

theorem posOf_range {k n : Nat} (hk : k < n) : posOf k (List.range n) = k :=
  posOf_eq_of_count_one
    (by
      have h1 : (List.range n).count k ≤ 1 := List.nodup_iff_count_le_one.1 (List.nodup_range n) k
      have h2 : 0 < (List.range n).count k := List.count_pos_iff.2 (List.mem_range.2 hk)
      omega)
    (by rw [List.get?_eq_getElem?, List.getElem?_range hk])

/-- Reading the selected sub-list at position `j` is reading the original
at the position in `dims` of the `j`-th surviving source axis. -/
theorem selSome_getD_indexOf {dims : List (Option Nat)} {m : List Nat}
    (hnd : (dims.filterMap id).Nodup) (hlen : m.length = dims.length)
    {j : Nat} (hj : j < (dims.filterMap id).length) :
    (selSome dims m).getD j 0
      = m.getD (posOf (some ((dims.filterMap id).getD j 0)) dims) 0 := by
  induction dims generalizing m j with
  | nil => simp at hj
  | cons d ds ih =>
    cases m with
    | nil => simp at hlen
    | cons a ms =>
      have hlen' : ms.length = ds.length := by simpa using hlen
      cases d with
      | none =>
        rw [filterMap_id_cons_none] at hj hnd ⊢
        rw [selSome_cons_none]
        have hne : (none : Option Nat) ≠ some ((ds.filterMap id).getD j 0) := by simp
        rw [posOf_cons_ne hne, List.getD_cons_succ]
        exact ih hnd hlen' hj
      | some v =>
        rw [filterMap_id_cons_some] at hj hnd ⊢
        rw [selSome_cons_some]
        cases j with
        | zero =>
          rw [List.getD_cons_zero, List.getD_cons_zero, posOf_cons_self, List.getD_cons_zero]
        | succ j' =>
          rw [List.getD_cons_succ, List.getD_cons_succ]
          have hj' : j' < (ds.filterMap id).length := by simpa using hj
          have hvne : v ≠ (ds.filterMap id).getD j' 0 := by
            intro he
            have hmem : (ds.filterMap id).getD j' 0 ∈ ds.filterMap id := by
              rw [List.getD_eq_getElem _ _ hj']
              exact List.getElem_mem hj'
            rw [← he] at hmem
            exact (List.nodup_cons.1 hnd).1 hmem
          have hne : (some v : Option Nat) ≠ some ((ds.filterMap id).getD j' 0) := by
            simp only [ne_eq, Option.some.injEq]
            exact hvne
          rw [posOf_cons_ne hne, List.getD_cons_succ]
          exact ih (List.nodup_cons.1 hnd).2 hlen' hj'

/-- Entry `k` of the gathered source index: reading the selected sub-index
at the position of `k` inside the permutation equals reading the full
output index at the position of `some k` inside `dims`. -/
theorem selSome_getD_perm {dims : List (Option Nat)} {m : List Nat} {r : Nat}
    (hperm : (dims.filterMap id).Perm (List.range r)) (hlen : m.length = dims.length)
    {k : Nat} (hk : k < r) :
    (selSome dims m).getD (posOf k (dims.filterMap id)) 0
      = m.getD (posOf (some k) dims) 0 := by
  have hmem : k ∈ dims.filterMap id := hperm.mem_iff.2 (List.mem_range.2 hk)
  have hj : posOf k (dims.filterMap id) < (dims.filterMap id).length :=
    posOf_lt_length hmem
  have hnd : (dims.filterMap id).Nodup := (hperm.nodup_iff).2 (List.nodup_range r)
  have hgd : (dims.filterMap id).getD (posOf k (dims.filterMap id)) 0 = k :=
    getD_posOf hmem 0
  have h := selSome_getD_indexOf hnd hlen hj
  rw [hgd] at h
  exact h

/-! ### Well-formedness and the common normal form of both interpreters -/

/-- Well-formedness of `(shape, dims)` over a source of shape `srcShape`:
one `dims` entry per output axis, the non-sentinel entries a permutation
of the source axes, and every non-sentinel output axis sized like the
source axis it reads (the invariant the lazy constructors maintain). -/
def WFdims (dims : List (Option Nat)) (shape srcShape : List Nat) : Prop :=
  dims.length = shape.length ∧
  (dims.filterMap id).Perm (List.range srcShape.length) ∧
  List.Forall₂ (fun d s => ∀ k, d = some k → srcShape.getD k 0 = s) dims shape

/-- The common denotation of both reindexing tails: output index `m` reads
source axis `k` from the output axis that carries `some k`. -/
def reindexNF {α : Type} (shape : List Nat) (dims : List (Option Nat)) (x : Tensor α) : Tensor α :=
  ⟨x.dtype, shape,
   fun m => x.data ((List.range x.shape.length).map (fun k => m.getD (posOf (some k) dims) 0))⟩

theorem tensorEqOn_refl {α : Type} (t : Tensor α) : TensorEqOn t t :=
  ⟨rfl, rfl, fun _ _ => rfl⟩

theorem tensorEqOn_symm {α : Type} {t u : Tensor α} (h : TensorEqOn t u) : TensorEqOn u t :=
  ⟨h.1.symm, h.2.1.symm, fun m hm => (h.2.2 m (by rwa [h.2.1])).symm⟩

theorem tensorEqOn_trans {α : Type} {t u v : Tensor α}
    (h1 : TensorEqOn t u) (h2 : TensorEqOn u v) : TensorEqOn t v :=
  ⟨h1.1.trans h2.1, h1.2.1.trans h2.2.1,
   fun m hm => (h1.2.2 m hm).trans (h2.2.2 m (by rwa [← h1.2.1]))⟩

theorem getD_range {j n : Nat} (hj : j < n) : (List.range n).getD j 0 = j := by
  rw [List.getD_eq_getElem?_getD, List.getElem?_range hj]
  rfl

theorem selSome_eq_map_filterMap {dims : List (Option Nat)} {shape srcShape : List Nat}
    (h : List.Forall₂ (fun d s => ∀ k, d = some k → srcShape.getD k 0 = s) dims shape) :
    selSome dims shape = (dims.filterMap id).map (fun k => srcShape.getD k 0) := by
  induction h with
  | nil => rfl
  | @cons d s ds ss hds _ ih =>
    cases d with
    | none => rw [selSome_cons_none, filterMap_id_cons_none]; exact ih
    | some k =>
      rw [selSome_cons_some, filterMap_id_cons_some, List.map_cons, hds k rfl, ih]

theorem length_selSome_eq {α : Type} {dims : List (Option Nat)} {l : List α}
    (hlen : l.length = dims.length) :
    (selSome dims l).length = (dims.filterMap id).length := by
  induction dims generalizing l with
  | nil =>
    cases l with
    | nil => rfl
    | cons a ls => simp at hlen
  | cons d ds ih =>
    cases l with
    | nil => simp at hlen
    | cons a ls =>
      have hlen' : ls.length = ds.length := by simpa using hlen
      cases d with
      | none => rw [selSome_cons_none, filterMap_id_cons_none]; exact ih hlen'
      | some v =>
        rw [selSome_cons_some, filterMap_id_cons_some]
        simpa using ih hlen'

theorem selSome_length_le {α : Type} (dims : List (Option Nat)) (l : List α) :
    (selSome dims l).length ≤ l.length := by
  induction dims generalizing l with
  | nil => simp [selSome_nil_left]
  | cons d ds ih =>
    cases l with
    | nil => rw [selSome_nil_right]
    | cons a ls =>
      cases d with
      | none =>
        rw [selSome_cons_none]
        exact Nat.le_trans (ih ls) (by simp)
      | some v =>
        rw [selSome_cons_some]
        simpa using ih ls

/-- When selecting from `l` loses no entries, `dims` has no sentinel in
range, so selecting from any equally long list is the identity. -/
theorem selSome_eq_self {α : Type} {dims : List (Option Nat)} {l l2 : List α}
    (hlen : dims.length = l.length) (hself : (selSome dims l).length = l.length)
    (hlen2 : l2.length = dims.length) :
    selSome dims l2 = l2 := by
  induction dims generalizing l l2 with
  | nil =>
    cases l2 with
    | nil => rfl
    | cons b l2s => simp at hlen2
  | cons d ds ih =>
    cases l with
    | nil => simp at hlen
    | cons a ls =>
      cases l2 with
      | nil => simp at hlen2
      | cons b l2s =>
        have hlen' : ds.length = ls.length := by simpa using hlen
        have hlen2' : l2s.length = ds.length := by simpa using hlen2
        cases d with
        | none =>
          exfalso
          rw [selSome_cons_none] at hself
          have h1 := selSome_length_le ds ls
          simp at hself
          omega
        | some v =>
          rw [selSome_cons_some] at hself ⊢
          have hself' : (selSome ds ls).length = ls.length := by simpa using hself
          rw [ih hlen' hself' hlen2']

/-- Data of the transposed operand at a selected sub-index: the gathered
source index of the normal form. -/
theorem transpose_data_sel {x : Tensor Int} {dims : List (Option Nat)} {m : List Nat}
    (hperm : (dims.filterMap id).Perm (List.range x.shape.length))
    (hmlen : m.length = dims.length) :
    (npTranspose x (dims.filterMap id)).data (selSome dims m)
      = x.data ((List.range x.shape.length).map (fun k => m.getD (posOf (some k) dims) 0)) := by
  show x.data ((List.range x.shape.length).map
      (fun k => (selSome dims m).getD (posOf k (dims.filterMap id)) 0)) = _
  congr 1
  apply List.map_congr_left
  intro k hk
  exact selSome_getD_perm hperm hmlen (List.mem_range.1 hk)

/-- When the non-sentinel dims are already the identity permutation, the
selected sub-index is itself the gathered source index. -/
theorem selSome_eq_gather {dims : List (Option Nat)} {m : List Nat} {r : Nat}
    (hperm : (dims.filterMap id).Perm (List.range r))
    (hid : dims.filterMap id = List.range (dims.filterMap id).length)
    (hmlen : m.length = dims.length) :
    selSome dims m = (List.range r).map (fun k => m.getD (posOf (some k) dims) 0) := by
  have hr : (dims.filterMap id).length = r := by
    have h := hperm.length_eq
    rwa [List.length_range] at h
  apply List.ext_get
  · rw [length_selSome_eq hmlen, hr]; simp
  · intro j h1 h2
    have hjr : j < r := by simpa using h2
    have hj : j < (dims.filterMap id).length := by omega
    have hsel := selSome_getD_indexOf ((hperm.nodup_iff).2 (List.nodup_range r)) hmlen hj
    have hgdj : (dims.filterMap id).getD j 0 = j := by
      rw [hid, getD_range]; rwa [hr]
    rw [hgdj] at hsel
    rw [List.get_eq_getElem, List.get_eq_getElem,
      ← List.getD_eq_getElem (selSome dims m) 0 h1, hsel,
      ← List.getD_eq_getElem _ 0 h2, getD_map_range hjr]

/-- The eager broadcast step (reshape to `in_shape` then `broadcast_to`)
reads the operand at the selected sub-index. -/
theorem bcast_step_data {x1 : Tensor Int} {dims : List (Option Nat)} {shape : List Nat}
    (hx1shape : x1.shape = selSome dims shape)
    {m : List Nat} (hm : Valid m shape) :
    (npBroadcastTo (npReshape x1 (inShape dims shape)) shape).data m
      = x1.data (selSome dims m) := by
  show x1.data (unravel x1.shape (ravel (inShape dims shape)
    (List.zipWith (fun ts mi => if ts = 1 then 0 else mi) (inShape dims shape) m))) = _
  rw [ravel_inShape_mask hm, hx1shape, unravel_ravel (valid_selSome hm)]

/-- The staged broadcast step (`BroadcastInDim` along the non-sentinel
positions) reads the operand at the selected sub-index. -/
theorem bcast_in_dim_step_data {x1 : Tensor Int} {dims : List (Option Nat)} {shape : List Nat}
    (hx1shape : x1.shape = selSome dims shape)
    {m : List Nat} (hm : Valid m shape) :
    (xlaBroadcastInDim x1 shape ((enumNonNone 0 dims).map Prod.fst)).data m
      = x1.data (selSome dims m) := by
  show x1.data (List.zipWith (fun ts di => if ts = 1 then 0 else m.getD di 0)
    x1.shape ((enumNonNone 0 dims).map Prod.fst)) = _
  rw [hx1shape, zipWith_selSome_enum (List.drop_zero m) hm]

theorem xlaTranspose_eq_np {α : Type} (t : Tensor α) (p : List Nat) :
    xlaTranspose t p = npTranspose t p := rfl

/-- The eager reindexing tail agrees with the normal form on every
well-formed `(shape, dims)`. -/
theorem eval_reindex_nf {dims : List (Option Nat)} {shape : List Nat} {x : Tensor Int}
    (hwf : WFdims dims shape x.shape) :
    TensorEqOn (eval_reindex shape dims x) (reindexNF shape dims x) := by
  obtain ⟨hlen, hperm, hcons⟩ := hwf
  have hpl : (dims.filterMap id).length = x.shape.length := by
    have h := hperm.length_eq
    rwa [List.length_range] at h
  have hx1shape : (npTranspose x (dims.filterMap id)).shape = selSome dims shape := by
    show (dims.filterMap id).map (fun i => x.shape.getD i 0) = selSome dims shape
    rw [selSome_eq_map_filterMap hcons]
  simp only [eval_reindex]
  by_cases hid : dims.filterMap id = List.range (dims.filterMap id).length
  · rw [if_pos hid]
    have hsel_shape : selSome dims shape = x.shape := by
      rw [← hx1shape]
      show (dims.filterMap id).map (fun i => x.shape.getD i 0) = x.shape
      rw [hid, hpl, map_getD_range]
    by_cases hsh : shape = x.shape
    · rw [if_pos hsh]
      refine ⟨rfl, hsh.symm, ?_⟩
      intro m hm
      have hmlen : m.length = dims.length := by
        rw [valid_length hm, ← hsh, hlen]
      have hself : (selSome dims shape).length = shape.length := by
        rw [hsel_shape, hsh]
      have h2 : selSome dims m = m := selSome_eq_self hlen hself hmlen
      show x.data m
        = x.data ((List.range x.shape.length).map (fun k => m.getD (posOf (some k) dims) 0))
      rw [← selSome_eq_gather hperm hid hmlen, h2]
    · rw [if_neg hsh]
      refine ⟨rfl, rfl, ?_⟩
      intro m hm
      have hm' : Valid m shape := hm
      have hmlen : m.length = dims.length := by rw [valid_length hm', hlen]
      show (npBroadcastTo (npReshape x (inShape dims shape)) shape).data m
        = x.data ((List.range x.shape.length).map (fun k => m.getD (posOf (some k) dims) 0))
      rw [bcast_step_data hsel_shape.symm hm', selSome_eq_gather hperm hid hmlen]
  · rw [if_neg hid]
    by_cases hsh : shape = (npTranspose x (dims.filterMap id)).shape
    · rw [if_pos hsh]
      refine ⟨rfl, hsh.symm, ?_⟩
      intro m hm
      have hs2 : shape = selSome dims shape := hsh.trans hx1shape
      have hmlen : m.length = dims.length := by
        rw [valid_length hm, ← hsh, hlen]
      have hself : (selSome dims shape).length = shape.length :=
        (congrArg List.length hs2).symm
      have h2 : selSome dims m = m := selSome_eq_self hlen hself hmlen
      show (npTranspose x (dims.filterMap id)).data m
        = x.data ((List.range x.shape.length).map (fun k => m.getD (posOf (some k) dims) 0))
      conv_lhs => rw [← h2]
      exact transpose_data_sel hperm hmlen
    · rw [if_neg hsh]
      refine ⟨rfl, rfl, ?_⟩
      intro m hm
      have hm' : Valid m shape := hm
      have hmlen : m.length = dims.length := by rw [valid_length hm', hlen]
      show (npBroadcastTo (npReshape (npTranspose x (dims.filterMap id))
          (inShape dims shape)) shape).data m
        = x.data ((List.range x.shape.length).map (fun k => m.getD (posOf (some k) dims) 0))
      rw [bcast_step_data hx1shape hm']
      exact transpose_data_sel hperm hmlen

/-- The staged reindexing tail agrees with the same normal form on every
well-formed `(shape, dims)`. -/
theorem stage_reindex_nf {dims : List (Option Nat)} {shape : List Nat} {x : Tensor Int}
    (hwf : WFdims dims shape x.shape) :
    TensorEqOn (stage_reindex shape dims x) (reindexNF shape dims x) := by
  obtain ⟨hlen, hperm, hcons⟩ := hwf
  have hpl : (dims.filterMap id).length = x.shape.length := by
    have h := hperm.length_eq
    rwa [List.length_range] at h
  have hx1shape : (npTranspose x (dims.filterMap id)).shape = selSome dims shape := by
    show (dims.filterMap id).map (fun i => x.shape.getD i 0) = selSome dims shape
    rw [selSome_eq_map_filterMap hcons]
  simp only [stage_reindex, enumNonNone_snd, xlaTranspose_eq_np]
  by_cases hid : dims.filterMap id = List.range (dims.filterMap id).length
  · rw [if_pos hid]
    have hsel_shape : selSome dims shape = x.shape := by
      rw [← hx1shape]
      show (dims.filterMap id).map (fun i => x.shape.getD i 0) = x.shape
      rw [hid, hpl, map_getD_range]
    by_cases hsh : shape = x.shape
    · rw [if_pos hsh]
      refine ⟨rfl, hsh.symm, ?_⟩
      intro m hm
      have hmlen : m.length = dims.length := by
        rw [valid_length hm, ← hsh, hlen]
      have hself : (selSome dims shape).length = shape.length := by
        rw [hsel_shape, hsh]
      have h2 : selSome dims m = m := selSome_eq_self hlen hself hmlen
      show x.data m
        = x.data ((List.range x.shape.length).map (fun k => m.getD (posOf (some k) dims) 0))
      rw [← selSome_eq_gather hperm hid hmlen, h2]
    · rw [if_neg hsh]
      refine ⟨rfl, rfl, ?_⟩
      intro m hm
      have hm' : Valid m shape := hm
      have hmlen : m.length = dims.length := by rw [valid_length hm', hlen]
      show (xlaBroadcastInDim x shape ((enumNonNone 0 dims).map Prod.fst)).data m
        = x.data ((List.range x.shape.length).map (fun k => m.getD (posOf (some k) dims) 0))
      rw [bcast_in_dim_step_data hsel_shape.symm hm', selSome_eq_gather hperm hid hmlen]
  · rw [if_neg hid]
    by_cases hsh : shape = (npTranspose x (dims.filterMap id)).shape
    · rw [if_pos hsh]
      refine ⟨rfl, hsh.symm, ?_⟩
      intro m hm
      have hs2 : shape = selSome dims shape := hsh.trans hx1shape
      have hmlen : m.length = dims.length := by
        rw [valid_length hm, ← hsh, hlen]
      have hself : (selSome dims shape).length = shape.length :=
        (congrArg List.length hs2).symm
      have h2 : selSome dims m = m := selSome_eq_self hlen hself hmlen
      show (npTranspose x (dims.filterMap id)).data m
        = x.data ((List.range x.shape.length).map (fun k => m.getD (posOf (some k) dims) 0))
      conv_lhs => rw [← h2]
      exact transpose_data_sel hperm hmlen
    · rw [if_neg hsh]
      refine ⟨rfl, rfl, ?_⟩
      intro m hm
      have hm' : Valid m shape := hm
      have hmlen : m.length = dims.length := by rw [valid_length hm', hlen]
      show (xlaBroadcastInDim (npTranspose x (dims.filterMap id)) shape
          ((enumNonNone 0 dims).map Prod.fst)).data m
        = x.data ((List.range x.shape.length).map (fun k => m.getD (posOf (some k) dims) 0))
      rw [bcast_in_dim_step_data hx1shape hm']
      exact transpose_data_sel hperm hmlen

/-! ### Congruence of the normal form in its source tensor -/

/-- The gathered source index of the normal form is valid for the source
shape. -/
theorem gather_valid {dims : List (Option Nat)} {shape srcShape : List Nat}
    (hwf : WFdims dims shape srcShape) {m : List Nat} (hm : Valid m shape) :
    Valid ((List.range srcShape.length).map (fun k => m.getD (posOf (some k) dims) 0))
      srcShape := by
  obtain ⟨hlen, hperm, hcons⟩ := hwf
  rw [Valid, List.forall₂_iff_get]
  constructor
  · simp
  · intro i h1 h2
    have hi : i < srcShape.length := h2
    have hmemf : i ∈ dims.filterMap id := hperm.mem_iff.2 (List.mem_range.2 hi)
    have hmem : (some i : Option Nat) ∈ dims := by
      rcases List.mem_filterMap.1 hmemf with ⟨a, ha, hai⟩
      have hai2 : a = some i := hai
      rwa [hai2] at ha
    have hidx : posOf (some i) dims < dims.length := posOf_lt_length hmem
    have hdimsget : dims.get ⟨posOf (some i) dims, hidx⟩ = some i := by
      rw [List.get_eq_getElem, ← List.getD_eq_getElem dims none hidx, getD_posOf hmem]
    rcases List.forall₂_iff_get.1 hcons with ⟨hclen, hcget⟩
    have hidx2 : posOf (some i) dims < shape.length := by omega
    have hshape : srcShape.getD i 0
        = shape.get ⟨posOf (some i) dims, hidx2⟩ :=
      hcget (posOf (some i) dims) hidx hidx2 i hdimsget
    have hmv : m.getD (posOf (some i) dims) 0 < shape.getD (posOf (some i) dims) 0 :=
      valid_getD hm hidx2
    have hmap : ((List.range srcShape.length).map
        (fun k => m.getD (posOf (some k) dims) 0)).get ⟨i, h1⟩
        = m.getD (posOf (some i) dims) 0 := by
      simp
    have hsg : srcShape.get ⟨i, h2⟩ = srcShape.getD i 0 := by
      rw [List.get_eq_getElem, List.getD_eq_getElem srcShape 0 h2]
    have hsg2 : shape.get ⟨posOf (some i) dims, hidx2⟩
        = shape.getD (posOf (some i) dims) 0 := by
      rw [List.get_eq_getElem, List.getD_eq_getElem shape 0 hidx2]
    rw [hmap, hsg, hshape, hsg2]
    exact hmv

/-- The normal form is a congruence in its source tensor. -/
theorem reindexNF_congr {shape : List Nat} {dims : List (Option Nat)} {x y : Tensor Int}
    (hxy : TensorEqOn x y) (hwf : WFdims dims shape x.shape) :
    TensorEqOn (reindexNF shape dims x) (reindexNF shape dims y) := by
  refine ⟨hxy.1, rfl, ?_⟩
  intro m hm
  show x.data ((List.range x.shape.length).map (fun k => m.getD (posOf (some k) dims) 0))
    = y.data ((List.range y.shape.length).map (fun k => m.getD (posOf (some k) dims) 0))
  rw [← hxy.2.1]
  exact hxy.2.2 _ (gather_valid hwf hm)

/-! ### Equality of the eager and staged `Iota`/`Tri` source tensors -/

theorem npArange_eq_xlaIota (d : DType) (n : Nat) : npArange d n = xlaIota d n := rfl

/-- The staged `uint32` construction of `Tri` (xla.py lines 150-153) agrees
with `onp.tri` whenever the offset is nonnegative and small enough that
the `uint32` arithmetic cannot wrap. -/
theorem npTri_eqOn_staged {d : DType} {n m : Nat} {k : Int}
    (hk : 0 ≤ k) (hn : n + k.toNat ≤ u32size) (hm : m ≤ u32size) :
    TensorEqOn (npTri d n m k)
      (xlaConvertBool
        (xlaGeU32 (xlaAddU32Scalar (xlaBroadcastedIotaU32 [n, m] 0) (intToU32 k))
          (xlaBroadcastedIotaU32 [n, m] 1)) d) := by
  refine ⟨rfl, rfl, ?_⟩
  intro idx hidx
  rcases hidx with _ | ⟨hr, hidx2⟩
  case cons r rest =>
  rcases hidx2 with _ | ⟨hc, hidx3⟩
  case cons c rest2 =>
  cases hidx3
  -- idx = [r, c] with r < n, c < m
  have hn1 : 1 ≤ n := by omega
  have hku : k.toNat < u32size := by omega
  have hkmod : intToU32 k = k.toNat := by
    unfold intToU32
    have hklt : k < (u32size : Int) := by
      have := Int.toNat_of_nonneg hk
      omega
    rw [Int.emod_eq_of_lt hk hklt]
  show (if ((c : Int) - (r : Int) ≤ k) then (1 : Int) else 0)
    = (if decide (([r, c].getD 1 0 % u32size)
        ≤ ([r, c].getD 0 0 % u32size + intToU32 k) % u32size) then (1 : Int) else 0)
  have hrm : r % u32size = r := Nat.mod_eq_of_lt (by omega)
  have hcm : c % u32size = c := Nat.mod_eq_of_lt (by omega)
  have hsum : (r + k.toNat) % u32size = r + k.toNat := Nat.mod_eq_of_lt (by omega)
  rw [hkmod]
  show (if ((c : Int) - (r : Int) ≤ k) then (1 : Int) else 0)
    = (if decide ((c % u32size) ≤ (r % u32size + k.toNat) % u32size) then (1 : Int) else 0)
  rw [hrm, hcm, hsum]
  have hiff : ((c : Int) - (r : Int) ≤ k) ↔ (c ≤ r + k.toNat) := by
    have hcast := Int.toNat_of_nonneg hk
    omega
  by_cases hcase : (c : Int) - (r : Int) ≤ k
  · rw [if_pos hcase, if_pos (by rw [decide_eq_true_eq]; exact hiff.1 hcase)]
  · rw [if_neg hcase, if_neg (by rw [decide_eq_true_eq]; exact fun h => hcase (hiff.2 h))]

/-! ### Decidability of well-formedness (used by concrete witnesses) -/

instance consistentDecidable (srcShape : List Nat) (d : Option Nat) (s : Nat) :
    Decidable (∀ k, d = some k → srcShape.getD k 0 = s) :=
  match d with
  | none => isTrue (by intro k h; cases h)
  | some v =>
    decidable_of_iff (srcShape.getD v 0 = s)
      ⟨fun h k hk => by injection hk with h2; rw [← h2]; exact h, fun h => h v rfl⟩

instance wfdimsDecidable (dims : List (Option Nat)) (shape srcShape : List Nat) :
    Decidable (WFdims dims shape srcShape) := by
  unfold WFdims
  infer_instance

/-! ### Claim C1: eager vs staged evaluation of lazy expressions -/

/-- The sources on which both interpreters produce a result and agree: a
base array of the source's natural shape for `ArrayVar`; `Iota`; and
`Tri` with a nonnegative offset small enough that the staged `uint32`
arithmetic cannot wrap.  `Eye` is excluded because both interpreters read
the nonexistent `size` field (lines 109 and 142) and fail; `Tri` with a
negative offset is excluded because the two interpreters disagree. -/
inductive SourceOk : LazyExpr → Option (Tensor Int) → Prop where
  | arrayVarSrc (sh : List Nat) (dims : List (Option Nat)) (b : Tensor Int) :
      WFdims dims sh b.shape → SourceOk ⟨.arrayVar, sh, dims⟩ (some b)
  | iotaSrc (d : DType) (n : Nat) (sh : List Nat) (dims : List (Option Nat)) :
      WFdims dims sh [n] → SourceOk ⟨.iota d n, sh, dims⟩ none
  | triSrc (d : DType) (n mm : Nat) (k : Int) (sh : List Nat) (dims : List (Option Nat)) :
      WFdims dims sh [n, mm] → 0 ≤ k → n + k.toNat ≤ u32size → mm ≤ u32size →
      SourceOk ⟨.tri d [n, mm] k, sh, dims⟩ none

/-- C1 (counterexample): the claim fails as stated.  For the constructible
expression `lazy_tri(int32, (2,2), offset=-1)`, both interpreters produce
a result, but at index `(0,0)` eager evaluation (`onp.tri` with `k=-1`)
yields `0` while the staged graph (whose `Ge` compares the offset after
wrapping it to the `uint32` `2^32 - 1`, lines 150-152) yields `1`: the
element values differ. -/
theorem C1_counterexample :
    ((lazy_tri .int32 [2, 2] (-1)).bind (fun e => eval_lazy_expr e none)).map
        (fun t => t.data [0, 0]) = some 0
    ∧ ((lazy_tri .int32 [2, 2] (-1)).bind (fun e => stage_lazy_expr (some e) none)).map
        (fun t => t.data [0, 0]) = some 1 := by
  constructor
  · rfl
  · rfl

/-- C1 (amended): for every well-formed lazy expression whose source is
`ArrayVar` (with a base array of the natural shape), `Iota`, or `Tri`
with a nonnegative non-wrapping offset, eager evaluation via
`eval_lazy_expr` and staged evaluation via `stage_lazy_expr` both succeed
and produce results with identical dtype, identical shape, and identical
element values at every valid index. -/
theorem C1_lazy_staged_equivalence {e : LazyExpr} {x : Option (Tensor Int)}
    (h : SourceOk e x) :
    ∃ t₁ t₂, eval_lazy_expr e x = some t₁ ∧ stage_lazy_expr (some e) x = some t₂
      ∧ TensorEqOn t₁ t₂ := by
  cases h with
  | arrayVarSrc sh dims b hwf =>
    refine ⟨eval_reindex sh dims b, stage_reindex sh dims b, rfl, rfl, ?_⟩
    exact tensorEqOn_trans (eval_reindex_nf hwf) (tensorEqOn_symm (stage_reindex_nf hwf))
  | iotaSrc d n sh dims hwf =>
    refine ⟨eval_reindex sh dims (npArange d n), stage_reindex sh dims (xlaIota d n),
      rfl, rfl, ?_⟩
    have h1 := @eval_reindex_nf dims sh (npArange d n) hwf
    have h2 := @stage_reindex_nf dims sh (xlaIota d n) hwf
    exact tensorEqOn_trans h1 (tensorEqOn_symm h2)
  | triSrc d n mm k sh dims hwf hk hn hm =>
    refine ⟨eval_reindex sh dims (npTri d n mm k), _, rfl, rfl, ?_⟩
    have h1 := @eval_reindex_nf dims sh (npTri d n mm k) hwf
    have h2 := @stage_reindex_nf dims sh
      (xlaConvertBool
        (xlaGeU32 (xlaAddU32Scalar (xlaBroadcastedIotaU32 [n, mm] 0) (intToU32 k))
          (xlaBroadcastedIotaU32 [n, mm] 1)) d) hwf
    have hmid := @reindexNF_congr sh dims (npTri d n mm k) _
      (npTri_eqOn_staged hk hn hm) hwf
    exact tensorEqOn_trans h1 (tensorEqOn_trans hmid (tensorEqOn_symm h2))

/-- C1 (witness): the amended equivalence applied to a concrete
constructible expression, `lazy_iota(int32, 3)` transposed by the identity
and broadcast into shape `(2, 3)` along dimension 1. -/
theorem C1_witness :
    ∃ t₁ t₂,
      eval_lazy_expr (lazy_broadcast (lazy_transpose (lazy_iota .int32 3) [0]) [2, 3] [1])
        none = some t₁
      ∧ stage_lazy_expr
          (some (lazy_broadcast (lazy_transpose (lazy_iota .int32 3) [0]) [2, 3] [1]))
          none = some t₂
      ∧ TensorEqOn t₁ t₂ := by
  have he : lazy_broadcast (lazy_transpose (lazy_iota .int32 3) [0]) [2, 3] [1]
      = ⟨.iota .int32 3, [2, 3], [none, some 0]⟩ := by decide
  rw [he]
  exact C1_lazy_staged_equivalence
    (SourceOk.iotaSrc .int32 3 [2, 3] [none, some 0] (by decide))

/-! ### Claim C2: `Eye` evaluation -/

/-- C2: code bug.  `lazy_eye(float32, (3,3), 0)` builds the expected
expression, but `eval_lazy_expr` then reads `input_.size` (xla.py line
109) — a field `LazyEye = namedtuple('Eye', ['dtype', 'shape', 'offset'])`
does not have — so evaluation raises `AttributeError` for offset 0 and
offset 1 alike instead of producing the (shifted) identity matrix the
claim describes. -/
theorem C2_eye_eval_crashes :
    ((lazy_eye .float32 [3, 3] 0).bind (fun e => eval_lazy_expr e none)) = none
    ∧ ((lazy_eye .float32 [3, 3] 1).bind (fun e => eval_lazy_expr e none)) = none := by
  constructor
  · rfl
  · rfl

/-! ### Claim C10: definedness of `lazy_reshape` -/

/-- C10: `lazy_reshape(e, new_sizes)` is defined exactly when the non-1
entries of `new_sizes`, in order, equal `e.shape` (the assert at xla.py
line 92); consequently any expression whose current shape contains a 1
cannot be reshaped at all, and a genuine reshape such as `(6,)` to
`(2,3)` fails the assertion. -/
theorem C10_lazy_reshape_definedness :
    (∀ (e : LazyExpr) (ns : List Nat),
      (lazy_reshape e ns).isSome ↔ e.shape = ns.filter (fun d => d != 1))
    ∧ (∀ (e : LazyExpr) (ns : List Nat), (1 : Nat) ∈ e.shape → lazy_reshape e ns = none)
    ∧ lazy_reshape (lazy_iota .int32 6) [2, 3] = none := by
  refine ⟨?_, ?_, ?_⟩
  · intro e ns
    unfold lazy_reshape
    by_cases h : e.shape = ns.filter (fun d => d != 1)
    · rw [if_pos h]; simp [h]
    · rw [if_neg h]; simp [h]
  · intro e ns h1
    unfold lazy_reshape
    rw [if_neg]
    intro hcontra
    have hmem : (1 : Nat) ∈ ns.filter (fun d => d != 1) := hcontra ▸ h1
    have := List.of_mem_filter hmem
    simp at this
  · rfl

/-- C10 (witness): inserting size-1 axes around `(6,)` is accepted, while
reshaping `(1, 3)` (a shape containing a 1) is always rejected. -/
theorem C10_witness :
    (lazy_reshape (lazy_iota .int32 6) [1, 6, 1]).isSome
    ∧ lazy_reshape (lazy_array [1, 3]) [3, 5] = none :=
  ⟨(C10_lazy_reshape_definedness.1 (lazy_iota .int32 6) [1, 6, 1]).2 (by decide),
   C10_lazy_reshape_definedness.2.1 (lazy_array [1, 3]) [3, 5] (by decide)⟩

/-! ### Further list lemmas, for claim C3 (the constructor algebra) -/

theorem count_range_eq_one {k n : Nat} (hk : k < n) : (List.range n).count k = 1 := by
  have h1 : (List.range n).count k ≤ 1 := List.nodup_iff_count_le_one.1 (List.nodup_range n) k
  have h2 : 0 < (List.range n).count k := List.count_pos_iff.2 (List.mem_range.2 hk)
  omega

theorem count_one_of_perm_range {dims : List (Option Nat)} {r k : Nat}
    (hperm : (dims.filterMap id).Perm (List.range r)) (hk : k < r) :
    dims.count (some k) = 1 := by
  rw [← count_some_filterMap, hperm.count_eq, count_range_eq_one hk]

theorem getD_zipWith {α β γ : Type} (f : α → β → γ) {l1 : List α} {l2 : List β} {j : Nat}
    (h1 : j < l1.length) (h2 : j < l2.length) (d1 : α) (d2 : β) (dg : γ) :
    (List.zipWith f l1 l2).getD j dg = f (l1.getD j d1) (l2.getD j d2) := by
  rw [List.getD_eq_getElem?_getD, List.getElem?_zipWith,
    List.getElem?_eq_getElem h1, List.getElem?_eq_getElem h2,
    List.getD_eq_getElem l1 d1 h1, List.getD_eq_getElem l2 d2 h2]
  rfl

theorem forall₂_getD {α β : Type} {R : α → β → Prop} {l1 : List α} {l2 : List β}
    (h : List.Forall₂ R l1 l2) {i : Nat} (hi : i < l1.length) (d1 : α) (d2 : β) :
    R (l1.getD i d1) (l2.getD i d2) := by
  rcases List.forall₂_iff_get.1 h with ⟨hlen, hget⟩
  have hi2 : i < l2.length := by omega
  rw [List.getD_eq_getElem l1 d1 hi, List.getD_eq_getElem l2 d2 hi2]
  have := hget i hi hi2
  simpa using this

theorem perm_count_eq {α : Type} [BEq α] {l₁ l₂ : List α} (h : l₁.Perm l₂) (a : α) :
    l₁.count a = l₂.count a :=
  h.countP_eq (· == a)

/-- Position in the transpose-gathered dims `p.map (dims.getD · none)` of a
value occurring exactly once in `dims`: the position in `p` of its
position in `dims`. -/
theorem posOf_map_getD {p : List Nat} {dims : List (Option Nat)} {v : Option Nat}
    (hp : p.Perm (List.range dims.length)) (hc : dims.count v = 1) :
    posOf v (p.map (fun i => dims.getD i none)) = posOf (posOf v dims) p := by
  have hmem : v ∈ dims := List.count_pos_iff.1 (by omega)
  have hi0 : posOf v dims < dims.length := posOf_lt_length hmem
  have hi0p : posOf v dims ∈ p := hp.mem_iff.2 (List.mem_range.2 hi0)
  have hperm2 : (p.map (fun i => dims.getD i none)).Perm dims := by
    have h3 : (List.range dims.length).map (fun i => dims.getD i none) = dims :=
      map_getD_range dims none
    have h4 := hp.map (fun i => dims.getD i none)
    rwa [h3] at h4
  have hc2 : (p.map (fun i => dims.getD i none)).count v = 1 := by
    rw [perm_count_eq hperm2, hc]
  apply posOf_eq_of_count_one hc2
  rw [List.get?_eq_getElem?, List.getElem?_map]
  have hjlt : posOf (posOf v dims) p < p.length := posOf_lt_length hi0p
  rw [List.getElem?_eq_getElem hjlt]
  have hpget : p[posOf (posOf v dims) p] = posOf v dims := by
    rw [← List.getD_eq_getElem p 0 hjlt, getD_posOf hi0p]
  rw [hpget]
  show some (dims.getD (posOf v dims) none) = some v
  rw [getD_posOf hmem]

theorem prod_filter_ne_one (ns : List Nat) :
    (ns.filter (fun d => d != 1)).prod = ns.prod := by
  induction ns with
  | nil => rfl
  | cons n ns' ih =>
    by_cases h : n = 1
    · subst h; simp [List.filter_cons, ih]
    · have hb : (n != 1) = true := by simp [h]
      simp [List.filter_cons, hb, ih, List.prod_cons]

/-- The entries of `m` at the positions where `ns` is not 1 (the physical
index surviving a pure size-1-axis reshape). -/
def selNe1 (ns m : List Nat) : List Nat :=
  (ns.zip m).filterMap (fun p => if p.1 = 1 then none else some p.2)

theorem selNe1_cons_one (ns : List Nat) (a : Nat) (ms : List Nat) :
    selNe1 (1 :: ns) (a :: ms) = selNe1 ns ms := by
  simp [selNe1]

theorem selNe1_cons_ne {n : Nat} (h : n ≠ 1) (ns : List Nat) (a : Nat) (ms : List Nat) :
    selNe1 (n :: ns) (a :: ms) = a :: selNe1 ns ms := by
  simp [selNe1, h]

theorem selNe1_valid {ns m : List Nat} (h : Valid m ns) :
    Valid (selNe1 ns m) (ns.filter (fun d => d != 1)) := by
  induction h with
  | nil => exact List.Forall₂.nil
  | @cons a n ms ns' ha htail ih =>
    by_cases hn : n = 1
    · subst hn
      rw [selNe1_cons_one]
      simpa [List.filter_cons] using ih
    · have hb : (n != 1) = true := by simp [hn]
      rw [selNe1_cons_ne hn]
      simp only [List.filter_cons, hb, if_true]
      exact List.Forall₂.cons ha ih

theorem ravel_filter_ne_one {ns m : List Nat} (h : Valid m ns) :
    ravel ns m = ravel (ns.filter (fun d => d != 1)) (selNe1 ns m) := by
  induction h with
  | nil => rfl
  | @cons a n ms ns' ha htail ih =>
    by_cases hn : n = 1
    · subst hn
      have ha0 : a = 0 := by omega
      subst ha0
      rw [ravel_cons, selNe1_cons_one, Nat.zero_mul, Nat.zero_add, ih]
      simp [List.filter_cons]
    · have hb : (n != 1) = true := by simp [hn]
      rw [ravel_cons, selNe1_cons_ne hn]
      simp only [List.filter_cons, hb, if_true]
      rw [ravel_cons, prod_filter_ne_one, ih]

theorem takeDims_length {ds : List (Option Nat)} {ns : List Nat}
    (h : (ns.filter (fun d => d != 1)).length = ds.length) :
    (takeDims ds ns).length = ns.length := by
  induction ns generalizing ds with
  | nil => rfl
  | cons n ns' ih =>
    by_cases hn : n = 1
    · subst hn
      show (if (1 : Nat) = 1 then none :: takeDims ds ns' else _).length = ns'.length + 1
      rw [if_pos rfl, List.length_cons]
      have h' : (ns'.filter (fun d => d != 1)).length = ds.length := by
        simpa [List.filter_cons] using h
      rw [ih h']
    · have hb : (n != 1) = true := by simp [hn]
      rw [List.filter_cons, hb] at h
      simp only [if_true, List.length_cons] at h
      cases ds with
      | nil => simp at h
      | cons d rest =>
        show (if n = 1 then _ else d :: takeDims rest ns').length = ns'.length + 1
        rw [if_neg hn, List.length_cons]
        have h' : (ns'.filter (fun d => d != 1)).length = rest.length := by
          simpa using h
        rw [ih h']

theorem takeDims_filterMap {ds : List (Option Nat)} {ns : List Nat}
    (h : (ns.filter (fun d => d != 1)).length = ds.length) :
    (takeDims ds ns).filterMap id = ds.filterMap id := by
  induction ns generalizing ds with
  | nil =>
    cases ds with
    | nil => rfl
    | cons d rest => simp at h
  | cons n ns' ih =>
    by_cases hn : n = 1
    · subst hn
      show (if (1 : Nat) = 1 then none :: takeDims ds ns' else _).filterMap id = _
      rw [if_pos rfl, filterMap_id_cons_none]
      have h' : (ns'.filter (fun d => d != 1)).length = ds.length := by
        simpa [List.filter_cons] using h
      exact ih h'
    · have hb : (n != 1) = true := by simp [hn]
      rw [List.filter_cons, hb] at h
      simp only [if_true, List.length_cons] at h
      cases ds with
      | nil => simp at h
      | cons d rest =>
        show (if n = 1 then _ else d :: takeDims rest ns').filterMap id = _
        rw [if_neg hn]
        have h' : (ns'.filter (fun d => d != 1)).length = rest.length := by
          simpa using h
        cases d with
        | none => rw [filterMap_id_cons_none, filterMap_id_cons_none]; exact ih h'
        | some v =>
          rw [filterMap_id_cons_some, filterMap_id_cons_some, ih h']

theorem takeDims_consistency {srcShape : List Nat} {ds : List (Option Nat)} {ns : List Nat}
    (hf : List.Forall₂ (fun d s => ∀ k, d = some k → srcShape.getD k 0 = s) ds
      (ns.filter (fun d => d != 1))) :
    List.Forall₂ (fun d s => ∀ k, d = some k → srcShape.getD k 0 = s) (takeDims ds ns) ns := by
  induction ns generalizing ds with
  | nil => exact List.Forall₂.nil
  | cons n ns' ih =>
    by_cases hn : n = 1
    · subst hn
      show List.Forall₂ _ (if (1 : Nat) = 1 then none :: takeDims ds ns' else _) _
      rw [if_pos rfl]
      refine List.Forall₂.cons ?_ ?_
      · intro k hk; cases hk
      · apply ih
        simpa [List.filter_cons] using hf
    · have hb : (n != 1) = true := by simp [hn]
      rw [List.filter_cons, hb] at hf
      simp only [if_true] at hf
      cases hf with
      | cons hd htail =>
        rename_i d rest
        show List.Forall₂ _ (if n = 1 then _ else d :: takeDims rest ns') _
        rw [if_neg hn]
        exact List.Forall₂.cons hd (ih htail)

/-- Reading through a pure size-1 reshape: the position of a non-sentinel
value in `takeDims ds ns` and in `ds` pick out the same entry. -/
theorem selNe1_getD_posOf {v : Option Nat} (hv : v ≠ none) {ns m : List Nat}
    {ds : List (Option Nat)} (hval : Valid m ns)
    (hlen : (ns.filter (fun d => d != 1)).length = ds.length) :
    (selNe1 ns m).getD (posOf v ds) 0 = m.getD (posOf v (takeDims ds ns)) 0 := by
  induction hval generalizing ds with
  | nil =>
    cases ds with
    | nil => rfl
    | cons d rest => simp at hlen
  | @cons a n ms ns' ha htail ih =>
    by_cases hn : n = 1
    · subst hn
      rw [selNe1_cons_one]
      show _ = (a :: ms).getD (posOf v (if (1 : Nat) = 1 then none :: takeDims ds ns' else _)) 0
      rw [if_pos rfl, posOf_cons_ne (fun he => hv he.symm), List.getD_cons_succ]
      have hlen' : (ns'.filter (fun d => d != 1)).length = ds.length := by
        simpa [List.filter_cons] using hlen
      exact ih hlen'
    · have hb : (n != 1) = true := by simp [hn]
      rw [List.filter_cons, hb] at hlen
      simp only [if_true, List.length_cons] at hlen
      cases ds with
      | nil => simp at hlen
      | cons d rest =>
        have hlen' : (ns'.filter (fun d => d != 1)).length = rest.length := by
          simpa using hlen
        rw [selNe1_cons_ne hn]
        show _ = (a :: ms).getD (posOf v (if n = 1 then _ else d :: takeDims rest ns')) 0
        rw [if_neg hn]
        by_cases hd : d = v
        · subst hd
          rw [posOf_cons_self, posOf_cons_self, List.getD_cons_zero, List.getD_cons_zero]
        · rw [posOf_cons_ne hd, posOf_cons_ne hd, List.getD_cons_succ, List.getD_cons_succ]
          exact ih hlen'

/-! ### The scatter loop of `lazy_broadcast` (xla.py lines 81-83) -/

theorem scatter_length {α : Type} (pairs : List (Nat × α)) (acc : List α) :
    (pairs.foldl (fun a p => a.set p.1 p.2) acc).length = acc.length := by
  induction pairs generalizing acc with
  | nil => rfl
  | cons q rest ih =>
    show (rest.foldl _ (acc.set q.1 q.2)).length = _
    rw [ih, List.length_set]

theorem scatter_get?_not_mem {α : Type} {pairs : List (Nat × α)} {acc : List α} {j : Nat}
    (hj : j ∉ pairs.map Prod.fst) :
    (pairs.foldl (fun a p => a.set p.1 p.2) acc).get? j = acc.get? j := by
  induction pairs generalizing acc with
  | nil => rfl
  | cons q rest ih =>
    have hj1 : j ≠ q.1 := by
      intro he; exact hj (by simp [he])
    have hj2 : j ∉ rest.map Prod.fst := by
      intro he; exact hj (by simp [he])
    show (rest.foldl _ (acc.set q.1 q.2)).get? j = _
    rw [ih hj2, List.get?_eq_getElem?, List.get?_eq_getElem?, List.getElem?_set,
      if_neg (fun he => hj1 he.symm)]

theorem scatter_get?_hit {α : Type} {pairs : List (Nat × α)} {acc : List α}
    (hnd : (pairs.map Prod.fst).Nodup) {i : Nat} (hi : i < pairs.length)
    (hlt : (pairs.get ⟨i, hi⟩).1 < acc.length) :
    (pairs.foldl (fun a p => a.set p.1 p.2) acc).get? (pairs.get ⟨i, hi⟩).1
      = some (pairs.get ⟨i, hi⟩).2 := by
  induction pairs generalizing acc i with
  | nil => simp at hi
  | cons q rest ih =>
    cases i with
    | zero =>
      have hnd2 : (q.1 :: rest.map Prod.fst).Nodup := hnd
      have hq : q.1 ∉ rest.map Prod.fst := (List.nodup_cons.1 hnd2).1
      have hlt0 : q.1 < acc.length := hlt
      show (rest.foldl _ (acc.set q.1 q.2)).get? q.1 = some q.2
      rw [scatter_get?_not_mem hq, List.get?_eq_getElem?, List.getElem?_set, if_pos rfl,
        if_pos hlt0]
    | succ i' =>
      have hi' : i' < rest.length := by simpa using hi
      have hnd2 : (q.1 :: rest.map Prod.fst).Nodup := hnd
      have hnd' : (rest.map Prod.fst).Nodup := (List.nodup_cons.1 hnd2).2
      have hlt' : (rest.get ⟨i', hi'⟩).1 < (acc.set q.1 q.2).length := by
        rw [List.length_set]; exact hlt
      exact ih hnd' hi' hlt'

theorem scatter_count {pairs : List (Nat × Option Nat)} {acc : List (Option Nat)}
    (hnd : (pairs.map Prod.fst).Nodup)
    (hacc : ∀ j ∈ pairs.map Prod.fst, j < acc.length ∧ acc.get? j = some none)
    (v : Nat) :
    (pairs.foldl (fun a p => a.set p.1 p.2) acc).count (some v)
      = acc.count (some v) + (pairs.map Prod.snd).count (some v) := by
  induction pairs generalizing acc with
  | nil => simp
  | cons q rest ih =>
    have hq := hacc q.1 (by simp)
    have hqlt : q.1 < acc.length := hq.1
    have hqnone : acc.get? q.1 = some none := hq.2
    have hqelem : acc[q.1] = none := by
      rw [List.get?_eq_getElem?, List.getElem?_eq_getElem hqlt] at hqnone
      injection hqnone
    have hnd2 : (q.1 :: rest.map Prod.fst).Nodup := hnd
    have hnd' : (rest.map Prod.fst).Nodup := (List.nodup_cons.1 hnd2).2
    have hinv : ∀ j ∈ rest.map Prod.fst,
        j < (acc.set q.1 q.2).length ∧ (acc.set q.1 q.2).get? j = some none := by
      intro j hj
      have hne : q.1 ≠ j := by
        intro he
        exact (List.nodup_cons.1 hnd2).1 (he ▸ hj)
      have h2 := hacc j (by simp [hj])
      refine ⟨by rw [List.length_set]; exact h2.1, ?_⟩
      rw [List.get?_eq_getElem?, List.getElem?_set, if_neg hne, ← List.get?_eq_getElem?]
      exact h2.2
    show (rest.foldl _ (acc.set q.1 q.2)).count (some v) = _
    rw [ih hnd' hinv]
    have hset : (acc.set q.1 q.2).count (some v)
        = acc.count (some v) + (if (q.2 == some v) = true then 1 else 0) := by
      rw [List.count_set q.2 (some v) acc q.1 hqlt, hqelem]
      simp
    rw [hset, List.map_cons, List.count_cons]
    omega

/-! ### Well-formedness is preserved by the three lazy constructors -/

theorem wfdims_transpose {dims : List (Option Nat)} {shape srcShape : List Nat} {p : List Nat}
    (hwf : WFdims dims shape srcShape) (hp : p.Perm (List.range dims.length)) :
    WFdims (p.map (fun i => dims.getD i none)) (p.map (fun i => shape.getD i 0)) srcShape := by
  obtain ⟨hlen, hperm, hcons⟩ := hwf
  refine ⟨by simp, ?_, ?_⟩
  · have hpermT : (p.map (fun i => dims.getD i none)).Perm dims := by
      have h3 : (List.range dims.length).map (fun i => dims.getD i none) = dims :=
        map_getD_range dims none
      have h4 := hp.map (fun i => dims.getD i none)
      rwa [h3] at h4
    exact (hpermT.filterMap id).trans hperm
  · rw [List.forall₂_map_left_iff, List.forall₂_map_right_iff, List.forall₂_same]
    intro i hip k hk
    have hi : i < dims.length := List.mem_range.1 (hp.mem_iff.1 hip)
    exact forall₂_getD hcons hi none 0 k hk

theorem wfdims_broadcast {dims : List (Option Nat)} {shapeT srcShape : List Nat}
    {s : List Nat} {bd : List Nat}
    (hwf : WFdims dims shapeT srcShape)
    (hnd : bd.Nodup)
    (hfb : List.Forall₂ (fun bi sz => bi < s.length ∧ s.getD bi 0 = sz) bd shapeT) :
    WFdims ((bd.zip dims).foldl (fun acc p => acc.set p.1 p.2) (List.replicate s.length none))
      s srcShape := by
  obtain ⟨hlen, hperm, hcons⟩ := hwf
  have hblen : bd.length = shapeT.length := hfb.length_eq
  have hblen2 : bd.length = dims.length := by omega
  have hfst : (bd.zip dims).map Prod.fst = bd := List.map_fst_zip bd dims (by omega)
  have hsnd : (bd.zip dims).map Prod.snd = dims := List.map_snd_zip bd dims (by omega)
  have hndp : ((bd.zip dims).map Prod.fst).Nodup := by rw [hfst]; exact hnd
  rcases List.forall₂_iff_get.1 hfb with ⟨hfbl, hfbg⟩
  have hacc : ∀ j ∈ (bd.zip dims).map Prod.fst,
      j < (List.replicate s.length (none : Option Nat)).length
      ∧ (List.replicate s.length (none : Option Nat)).get? j = some none := by
    intro j hj
    rw [hfst] at hj
    rcases List.mem_iff_get.1 hj with ⟨i, hig⟩
    have hji := hfbg i.1 i.2 (by omega)
    rw [hig] at hji
    refine ⟨by rw [List.length_replicate]; exact hji.1, ?_⟩
    rw [List.get?_eq_getElem?, List.getElem?_replicate, if_pos hji.1]
  refine ⟨?_, ?_, ?_⟩
  · rw [scatter_length, List.length_replicate]
  · have hcount : ∀ k : Nat,
        (((bd.zip dims).foldl (fun acc p => acc.set p.1 p.2)
          (List.replicate s.length none)).filterMap id).count k
        = (dims.filterMap id).count k := by
      intro k
      rw [count_some_filterMap, count_some_filterMap,
        scatter_count hndp hacc k, hsnd, List.count_replicate]
      simp
    exact (List.perm_iff_count.2 hcount).trans hperm
  · rw [List.forall₂_iff_get]
    have hslen : ((bd.zip dims).foldl (fun acc p => acc.set p.1 p.2)
        (List.replicate s.length (none : Option Nat))).length = s.length := by
      rw [scatter_length, List.length_replicate]
    refine ⟨by omega, ?_⟩
    intro j h1 h2 k hk
    by_cases hjb : j ∈ bd
    · rcases List.mem_iff_get.1 hjb with ⟨i, hig⟩
      have hidim : i.1 < dims.length := by omega
      have hit1 : i.1 < shapeT.length := by omega
      have hi2 : i.1 < (bd.zip dims).length := by
        rw [List.length_zip]; omega
      have hpair : (bd.zip dims).get ⟨i.1, hi2⟩ = (bd.get i, dims.get ⟨i.1, hidim⟩) := by
        rw [List.get_eq_getElem, List.getElem_zip]
        rw [List.get_eq_getElem, List.get_eq_getElem]
      have hji := hfbg i.1 i.2 hit1
      have hlt0 : ((bd.zip dims).get ⟨i.1, hi2⟩).1
          < (List.replicate s.length (none : Option Nat)).length := by
        rw [hpair, List.length_replicate]
        exact hji.1
      have hhit := @scatter_get?_hit (Option Nat) (bd.zip dims)
        (List.replicate s.length (none : Option Nat)) hndp i.1 hi2 hlt0
      have hhit2 : ((bd.zip dims).foldl (fun a p => a.set p.1 p.2)
          (List.replicate s.length (none : Option Nat))).get? j
          = some (dims.get ⟨i.1, hidim⟩) := by
        rw [hpair] at hhit
        rw [← hig]
        exact hhit
      have hscat := hk
      rw [List.get_eq_getElem] at hscat
      have hjlen : j < ((bd.zip dims).foldl (fun acc p => acc.set p.1 p.2)
          (List.replicate s.length (none : Option Nat))).length := h1
      have hget2 : ((bd.zip dims).foldl (fun acc p => acc.set p.1 p.2)
          (List.replicate s.length (none : Option Nat))).get? j
          = some (some k) := by
        rw [List.get?_eq_getElem?, List.getElem?_eq_getElem hjlen, hscat]
      rw [hget2] at hhit2
      have hdk : dims.get ⟨i.1, hidim⟩ = some k := by
        injection hhit2 with hh
        exact hh.symm
      rcases List.forall₂_iff_get.1 hcons with ⟨hcl, hcg⟩
      have hsrc := hcg i.1 hidim hit1 k hdk
      rw [hsrc, ← hji.2, hig, List.get_eq_getElem, ← List.getD_eq_getElem s 0 h2]
    · have hmiss := @scatter_get?_not_mem (Option Nat) (bd.zip dims)
        (List.replicate s.length (none : Option Nat)) j (by rw [hfst]; exact hjb)
      have hjlen : j < ((bd.zip dims).foldl (fun acc p => acc.set p.1 p.2)
          (List.replicate s.length (none : Option Nat))).length := h1
      have hrep : (List.replicate s.length (none : Option Nat)).get? j = some none := by
        rw [List.get?_eq_getElem?, List.getElem?_replicate, if_pos h2]
      rw [hrep] at hmiss
      have hscat := hk
      rw [List.get_eq_getElem] at hscat
      have hget2 : ((bd.zip dims).foldl (fun acc p => acc.set p.1 p.2)
          (List.replicate s.length (none : Option Nat))).get? j
          = some (some k) := by
        rw [List.get?_eq_getElem?, List.getElem?_eq_getElem hjlen, hscat]
      rw [hget2] at hmiss
      cases hmiss

theorem wfdims_reshape {dims : List (Option Nat)} {shapeB srcShape : List Nat} {ns : List Nat}
    (hwf : WFdims dims shapeB srcShape) (hns : shapeB = ns.filter (fun d => d != 1)) :
    WFdims (takeDims dims ns) ns srcShape := by
  obtain ⟨hlen, hperm, hcons⟩ := hwf
  have hlen2 : (ns.filter (fun d => d != 1)).length = dims.length := by
    rw [← hns, hlen]
  refine ⟨takeDims_length hlen2, ?_, ?_⟩
  · rw [takeDims_filterMap hlen2]; exact hperm
  · apply takeDims_consistency
    rw [← hns]; exact hcons

/-! ### The three plain array operations move the normal form along the
corresponding lazy constructor -/

/-- The plain-array broadcast-into-`s`-along-`bd` (`lax.broadcast_in_dim`
semantics, equivalently `onp.reshape` into the positions `bd` followed by
`onp.broadcast_to`): operand axis `j` feeds output axis `bd j`. -/
def npBroadcastInDim {α : Type} (t : Tensor α) (s : List Nat) (bd : List Nat) : Tensor α :=
  ⟨t.dtype, s, fun m => t.data (List.zipWith (fun ts di => if ts = 1 then 0 else m.getD di 0) t.shape bd)⟩

theorem getD_map {α β : Type} (f : α → β) {l : List α} {j : Nat} (hj : j < l.length)
    (d : α) (db : β) : (l.map f).getD j db = f (l.getD j d) := by
  rw [List.getD_eq_getElem?_getD, List.getElem?_map, List.getElem?_eq_getElem hj,
    List.getD_eq_getElem l d hj]
  rfl

theorem npTranspose_reindexNF {x : Tensor Int} {dims : List (Option Nat)} {shape : List Nat}
    {p : List Nat} (hwf : WFdims dims shape x.shape) (hp : p.Perm (List.range dims.length)) :
    TensorEqOn (npTranspose (reindexNF shape dims x) p)
      (reindexNF (p.map (fun i => shape.getD i 0)) (p.map (fun i => dims.getD i none)) x) := by
  obtain ⟨hlen, hperm, hcons⟩ := hwf
  refine ⟨rfl, rfl, ?_⟩
  intro m hm
  show x.data ((List.range x.shape.length).map (fun k =>
      ((List.range shape.length).map (fun a => m.getD (posOf a p) 0)).getD
        (posOf (some k) dims) 0))
    = x.data ((List.range x.shape.length).map (fun k =>
      m.getD (posOf (some k) (p.map (fun i => dims.getD i none))) 0))
  congr 1
  apply List.map_congr_left
  intro k hk
  have hkr : k < x.shape.length := List.mem_range.1 hk
  have hc := count_one_of_perm_range hperm hkr
  have hmem : (some k : Option Nat) ∈ dims := List.count_pos_iff.1 (by omega)
  have hjlt : posOf (some k) dims < shape.length := by
    have := posOf_lt_length hmem
    omega
  rw [getD_map_range hjlt, posOf_map_getD hp hc]

theorem npBroadcastInDim_reindexNF {x : Tensor Int} {dimsT : List (Option Nat)}
    {shapeT : List Nat} {s bd : List Nat}
    (hwf : WFdims dimsT shapeT x.shape) (hnd : bd.Nodup)
    (hfb : List.Forall₂ (fun bi sz => bi < s.length ∧ s.getD bi 0 = sz) bd shapeT) :
    TensorEqOn (npBroadcastInDim (reindexNF shapeT dimsT x) s bd)
      (reindexNF s ((bd.zip dimsT).foldl (fun acc p => acc.set p.1 p.2)
        (List.replicate s.length none)) x) := by
  obtain ⟨hlen, hperm, hcons⟩ := hwf
  have hblen : bd.length = shapeT.length := hfb.length_eq
  have hblen2 : bd.length = dimsT.length := by omega
  have hfst : (bd.zip dimsT).map Prod.fst = bd := List.map_fst_zip bd dimsT (by omega)
  have hsnd : (bd.zip dimsT).map Prod.snd = dimsT := List.map_snd_zip bd dimsT (by omega)
  have hndp : ((bd.zip dimsT).map Prod.fst).Nodup := by rw [hfst]; exact hnd
  have hacc : ∀ j ∈ (bd.zip dimsT).map Prod.fst,
      j < (List.replicate s.length (none : Option Nat)).length
      ∧ (List.replicate s.length (none : Option Nat)).get? j = some none := by
    intro j hj
    rw [hfst] at hj
    rcases List.mem_iff_get.1 hj with ⟨i, hig⟩
    rcases List.forall₂_iff_get.1 hfb with ⟨hfbl, hfbg⟩
    have hji := hfbg i.1 i.2 (by omega)
    rw [hig] at hji
    refine ⟨by rw [List.length_replicate]; exact hji.1, ?_⟩
    rw [List.get?_eq_getElem?, List.getElem?_replicate, if_pos hji.1]
  refine ⟨rfl, rfl, ?_⟩
  intro m hm
  show x.data ((List.range x.shape.length).map (fun k =>
      (List.zipWith (fun ts di => if ts = 1 then 0 else m.getD di 0) shapeT bd).getD
        (posOf (some k) dimsT) 0))
    = x.data ((List.range x.shape.length).map (fun k =>
      m.getD (posOf (some k) ((bd.zip dimsT).foldl (fun acc p => acc.set p.1 p.2)
        (List.replicate s.length none))) 0))
  congr 1
  apply List.map_congr_left
  intro k hk
  have hkr : k < x.shape.length := List.mem_range.1 hk
  have hc := count_one_of_perm_range hperm hkr
  have hmem : (some k : Option Nat) ∈ dimsT := List.count_pos_iff.1 (by omega)
  have hjk : posOf (some k) dimsT < dimsT.length := posOf_lt_length hmem
  have hjks : posOf (some k) dimsT < shapeT.length := by omega
  have hjkb : posOf (some k) dimsT < bd.length := by omega
  rw [getD_zipWith _ hjks hjkb 0 0]
  have hpred := forall₂_getD hfb hjkb 0 0
  -- the scattered dims of lazy_broadcast place `some k` at output axis
  -- `bd (posOf (some k) dimsT)`
  have hcB : ((bd.zip dimsT).foldl (fun acc p => acc.set p.1 p.2)
      (List.replicate s.length none)).count (some k) = 1 := by
    rw [scatter_count hndp hacc k, hsnd, List.count_replicate]
    simpa using hc
  have hi2 : posOf (some k) dimsT < (bd.zip dimsT).length := by
    rw [List.length_zip]; omega
  have hpair : (bd.zip dimsT).get ⟨posOf (some k) dimsT, hi2⟩
      = (bd.get ⟨posOf (some k) dimsT, hjkb⟩, dimsT.get ⟨posOf (some k) dimsT, hjk⟩) := by
    rw [List.get_eq_getElem, List.getElem_zip]
    rw [List.get_eq_getElem, List.get_eq_getElem]
  have hbget : bd.get ⟨posOf (some k) dimsT, hjkb⟩ = bd.getD (posOf (some k) dimsT) 0 := by
    rw [List.get_eq_getElem, ← List.getD_eq_getElem bd 0 hjkb]
  have hdget : dimsT.get ⟨posOf (some k) dimsT, hjk⟩ = some k := by
    rw [List.get_eq_getElem, ← List.getD_eq_getElem dimsT none hjk, getD_posOf hmem]
  have hlt0 : ((bd.zip dimsT).get ⟨posOf (some k) dimsT, hi2⟩).1
      < (List.replicate s.length (none : Option Nat)).length := by
    rw [hpair, List.length_replicate]
    have := forall₂_getD hfb hjkb 0 0
    rw [hbget]
    exact this.1
  have hhit := @scatter_get?_hit (Option Nat) (bd.zip dimsT)
    (List.replicate s.length (none : Option Nat)) hndp (posOf (some k) dimsT) hi2 hlt0
  rw [hpair, hbget, hdget] at hhit
  have hposB : posOf (some k) ((bd.zip dimsT).foldl (fun acc p => acc.set p.1 p.2)
      (List.replicate s.length none)) = bd.getD (posOf (some k) dimsT) 0 :=
    posOf_eq_of_count_one hcB hhit
  rw [hposB]
  by_cases hone : shapeT.getD (posOf (some k) dimsT) 0 = 1
  · rw [if_pos hone]
    have hms : m.getD (bd.getD (posOf (some k) dimsT) 0) 0
        < s.getD (bd.getD (posOf (some k) dimsT) 0) 0 := valid_getD hm hpred.1
    rw [hpred.2, hone] at hms
    omega
  · rw [if_neg hone]

theorem npReshape_reindexNF {x : Tensor Int} {dimsB : List (Option Nat)} {sB ns : List Nat}
    (hwf : WFdims dimsB sB x.shape) (hns : sB = ns.filter (fun d => d != 1)) :
    TensorEqOn (npReshape (reindexNF sB dimsB x) ns)
      (reindexNF ns (takeDims dimsB ns) x) := by
  obtain ⟨hlen, hperm, hcons⟩ := hwf
  refine ⟨rfl, rfl, ?_⟩
  intro m hm
  show x.data ((List.range x.shape.length).map (fun k =>
      (unravel sB (ravel ns m)).getD (posOf (some k) dimsB) 0))
    = x.data ((List.range x.shape.length).map (fun k =>
      m.getD (posOf (some k) (takeDims dimsB ns)) 0))
  have h1 : ravel ns m = ravel sB (selNe1 ns m) := by
    rw [hns]
    exact ravel_filter_ne_one hm
  have h2 : unravel sB (ravel ns m) = selNe1 ns m := by
    rw [h1]
    apply unravel_ravel
    rw [hns]
    exact selNe1_valid hm
  rw [h2]
  congr 1
  apply List.map_congr_left
  intro k hk
  have hlen2 : (ns.filter (fun d => d != 1)).length = dimsB.length := by
    rw [← hns, hlen]
  exact @selNe1_getD_posOf (some k) (by simp) ns m dimsB hm hlen2

/-! ### The plain operations respect elementwise tensor agreement -/

theorem npTranspose_congr {t u : Tensor Int} {p : List Nat} (h : TensorEqOn t u)
    (hp : p.Perm (List.range t.shape.length)) :
    TensorEqOn (npTranspose t p) (npTranspose u p) := by
  have hsh : (npTranspose t p).shape = (npTranspose u p).shape := by
    show p.map (fun j => t.shape.getD j 0) = p.map (fun j => u.shape.getD j 0)
    rw [h.2.1]
  refine ⟨h.1, hsh, ?_⟩
  intro m hm
  show t.data ((List.range t.shape.length).map (fun k => m.getD (posOf k p) 0))
    = u.data ((List.range u.shape.length).map (fun k => m.getD (posOf k p) 0))
  rw [← h.2.1]
  apply h.2.2
  rw [Valid, List.forall₂_iff_get]
  refine ⟨by simp, ?_⟩
  intro i h1 h2
  have hir : i < t.shape.length := h2
  have hip : i ∈ p := hp.mem_iff.2 (List.mem_range.2 hir)
  have hpos : posOf i p < p.length := posOf_lt_length hip
  have hmv : m.getD (posOf i p) 0 < (p.map (fun j => t.shape.getD j 0)).getD (posOf i p) 0 :=
    valid_getD hm (show posOf i p < (p.map (fun j => t.shape.getD j 0)).length by
      rw [List.length_map]
      exact hpos)
  have hmap : (p.map (fun j => t.shape.getD j 0)).getD (posOf i p) 0
      = t.shape.getD (p.getD (posOf i p) 0) 0 := getD_map _ hpos 0 0
  rw [getD_posOf hip] at hmap
  rw [hmap] at hmv
  have hg1 : ((List.range t.shape.length).map (fun k => m.getD (posOf k p) 0)).get ⟨i, h1⟩
      = m.getD (posOf i p) 0 := by
    simp
  rw [hg1, List.get_eq_getElem, ← List.getD_eq_getElem t.shape 0 h2]
  exact hmv

theorem npBroadcastInDim_congr {t u : Tensor Int} {s bd : List Nat} (h : TensorEqOn t u)
    (hfb : List.Forall₂ (fun bi sz => bi < s.length ∧ s.getD bi 0 = sz) bd t.shape) :
    TensorEqOn (npBroadcastInDim t s bd) (npBroadcastInDim u s bd) := by
  refine ⟨h.1, rfl, ?_⟩
  intro m hm
  show t.data (List.zipWith (fun ts di => if ts = 1 then 0 else m.getD di 0) t.shape bd)
    = u.data (List.zipWith (fun ts di => if ts = 1 then 0 else m.getD di 0) u.shape bd)
  rw [← h.2.1]
  apply h.2.2
  have hblen : bd.length = t.shape.length := hfb.length_eq
  rw [Valid, List.forall₂_iff_get]
  refine ⟨by rw [List.length_zipWith]; omega, ?_⟩
  intro i h1 h2
  have hib : i < bd.length := by omega
  have hzg : (List.zipWith (fun ts di => if ts = 1 then 0 else m.getD di 0) t.shape bd).get
      ⟨i, h1⟩ = if t.shape.getD i 0 = 1 then 0 else m.getD (bd.getD i 0) 0 := by
    rw [List.get_eq_getElem, ← List.getD_eq_getElem _ 0 h1, getD_zipWith _ h2 hib 0 0]
  rw [hzg, List.get_eq_getElem, ← List.getD_eq_getElem t.shape 0 h2]
  have hpred := forall₂_getD hfb hib 0 0
  by_cases hone : t.shape.getD i 0 = 1
  · rw [if_pos hone, hone]
    omega
  · rw [if_neg hone]
    have hmv : m.getD (bd.getD i 0) 0 < s.getD (bd.getD i 0) 0 := valid_getD hm hpred.1
    rw [hpred.2] at hmv
    exact hmv

theorem npReshape_congr {t u : Tensor Int} {ns : List Nat} (h : TensorEqOn t u)
    (hprod : ns.prod ≤ t.shape.prod) :
    TensorEqOn (npReshape t ns) (npReshape u ns) := by
  refine ⟨h.1, rfl, ?_⟩
  intro m hm
  show t.data (unravel t.shape (ravel ns m)) = u.data (unravel u.shape (ravel ns m))
  rw [← h.2.1]
  apply h.2.2
  apply unravel_valid
  have hm' : Valid m ns := hm
  have := ravel_lt hm'
  omega

/-! ### Claim C3: the constructor algebra vs the plain array operations -/

/-- The source-materialization head of `eval_lazy_expr` (xla.py lines
99-116), split out from the reindexing tail: it depends only on the
expression's input and the supplied base array. -/
def evalBase (inp : LazyInput) (x : Option (Tensor Int)) : Option (Tensor Int) :=
  match inp, x with
  | .arrayVar, some t => some t
  | .arrayVar, none => none
  | .iota d n, none => some (npArange d n)
  | .eye _ _ _, _ => none
  | .tri d sh k, none =>
    match sh with
    | [n, m] => some (npTri d n m k)
    | _ => none
  | _, some _ => none

theorem eval_lazy_expr_eq (e : LazyExpr) (x : Option (Tensor Int)) :
    eval_lazy_expr e x = (evalBase e.input x).map (fun b => eval_reindex e.shape e.dims b) :=
  rfl

/-- C3: for every lazy expression `e` whose source materializes to a base
array `b` and whose `(dims, shape)` bookkeeping is well-formed over `b`,
and every shape-compatible permutation `p`, broadcast shape `s` with
nodup broadcast dimensions `bd`, and reshape target `s2` accepted by
`lazy_reshape`, eagerly evaluating
`lazy_reshape(lazy_broadcast(lazy_transpose(e, p), s, bd), s2)` succeeds
and agrees — in dtype, shape, and every element at a valid index — with
evaluating `e` eagerly and then applying the plain array operations
transpose-by-`p`, broadcast-into-`s`-along-`bd`, reshape-to-`s2`, in that
order. -/
theorem C3_composition {e : LazyExpr} {x : Option (Tensor Int)} {b : Tensor Int}
    {p s bd s2 : List Nat} {e₃ : LazyExpr}
    (heb : evalBase e.input x = some b)
    (hwf : WFdims e.dims e.shape b.shape)
    (hp : p.Perm (List.range e.dims.length))
    (hnd : bd.Nodup)
    (hfb : List.Forall₂ (fun bi sz => bi < s.length ∧ s.getD bi 0 = sz) bd
      (lazy_transpose e p).shape)
    (h3 : lazy_reshape (lazy_broadcast (lazy_transpose e p) s bd) s2 = some e₃) :
    ∃ t₁ t₀, eval_lazy_expr e₃ x = some t₁ ∧ eval_lazy_expr e x = some t₀
      ∧ TensorEqOn t₁ (npReshape (npBroadcastInDim (npTranspose t₀ p) s bd) s2) := by
  have h3' := h3
  unfold lazy_reshape at h3'
  by_cases hs2g : (lazy_broadcast (lazy_transpose e p) s bd).shape
      = s2.filter (fun d => d != 1)
  · rw [if_pos hs2g] at h3'
    have hs2' : s = s2.filter (fun d => d != 1) := hs2g
    have he₃ : e₃ = ⟨e.input, s2,
        takeDims ((bd.zip (p.map (fun i => e.dims.getD i none))).foldl
          (fun acc q => acc.set q.1 q.2) (List.replicate s.length none)) s2⟩ :=
      (Option.some.inj h3').symm
    subst he₃
    have hfb0 : List.Forall₂ (fun bi sz => bi < s.length ∧ s.getD bi 0 = sz) bd
        (p.map (fun i => e.shape.getD i 0)) := hfb
    have hwfT := wfdims_transpose hwf hp
    have hwfB := wfdims_broadcast hwfT hnd hfb0
    have hwf₃ := wfdims_reshape hwfB hs2'
    have hev₃ : eval_lazy_expr (⟨e.input, s2,
        takeDims ((bd.zip (p.map (fun i => e.dims.getD i none))).foldl
          (fun acc q => acc.set q.1 q.2) (List.replicate s.length none)) s2⟩ : LazyExpr) x
        = some (eval_reindex s2
            (takeDims ((bd.zip (p.map (fun i => e.dims.getD i none))).foldl
              (fun acc q => acc.set q.1 q.2) (List.replicate s.length none)) s2) b) := by
      show (evalBase e.input x).map _ = _
      rw [heb]
      rfl
    have hev : eval_lazy_expr e x = some (eval_reindex e.shape e.dims b) := by
      rw [eval_lazy_expr_eq, heb]
      rfl
    have hA := eval_reindex_nf hwf
    have hshape₀ : (eval_reindex e.shape e.dims b).shape = e.shape := hA.2.1
    have hp' : p.Perm (List.range (eval_reindex e.shape e.dims b).shape.length) := by
      rw [hshape₀, ← hwf.1]
      exact hp
    have hT := tensorEqOn_trans (npTranspose_congr hA hp') (npTranspose_reindexNF hwf hp)
    have hfb' : List.Forall₂ (fun bi sz => bi < s.length ∧ s.getD bi 0 = sz) bd
        (npTranspose (eval_reindex e.shape e.dims b) p).shape := by
      show List.Forall₂ _ bd
        (p.map (fun j => (eval_reindex e.shape e.dims b).shape.getD j 0))
      simp only [hshape₀]
      exact hfb0
    have hB := tensorEqOn_trans (npBroadcastInDim_congr hT hfb')
      (npBroadcastInDim_reindexNF hwfT hnd hfb0)
    have hprod' : s2.prod ≤ (npBroadcastInDim
        (npTranspose (eval_reindex e.shape e.dims b) p) s bd).shape.prod := by
      show s2.prod ≤ s.prod
      rw [hs2', prod_filter_ne_one]
    have hR := tensorEqOn_trans (npReshape_congr hB hprod') (npReshape_reindexNF hwfB hs2')
    exact ⟨_, _, hev₃, hev,
      tensorEqOn_trans (eval_reindex_nf hwf₃) (tensorEqOn_symm hR)⟩
  · rw [if_neg hs2g] at h3'
    cases h3'

/-- C3 (witness): `lazy_iota(int32, 2)` transposed by `[0]`, broadcast
into shape `(3, 2)` along dimension 1, reshaped to `(3, 1, 2)`, evaluated
eagerly, agrees with the plain transpose/broadcast-in-dim/reshape chain
on the eager value of the iota. -/
theorem C3_witness :
    ∃ t₁ t₀,
      eval_lazy_expr (⟨.iota .int32 2, [3, 1, 2], [none, none, some 0]⟩ : LazyExpr) none
        = some t₁
      ∧ eval_lazy_expr (lazy_iota .int32 2) none = some t₀
      ∧ TensorEqOn t₁
          (npReshape (npBroadcastInDim (npTranspose t₀ [0]) [3, 2] [1]) [3, 1, 2]) :=
  @C3_composition (lazy_iota .int32 2) none (npArange .int32 2) [0] [3, 2] [1] [3, 1, 2]
    ⟨.iota .int32 2, [3, 1, 2], [none, none, some 0]⟩
    rfl (by decide) (by decide) (by decide) (by decide) (by decide)

/-! ### Claim C4: lowering-rule lookup in `_primitive_computation`
(xla.py lines 294-313) -/

/-- The four translation tables consulted by `_primitive_computation`
(and by `jaxpr_subcomp`): the backend-specific table is keyed by platform
then primitive, the other three by primitive alone.  Membership `prim in
table` is `some`; the tables are otherwise opaque. -/
structure TranslationTables (Platform Prim Rule : Type) where
  backend_specific_translations : Platform → Prim → Option Rule
  translations : Prim → Option Rule
  reduction_translations : Prim → Option Rule
  initial_style_translations : Prim → Option Rule

/-- How the chosen rule is invoked (xla.py lines 301-311): plain
(`rule(c, *xla_args, **params)`), with `backend=backend` appended, or
with a fresh `AxisEnv()` plus the backend. -/
inductive RuleCall (Rule : Type) where
  | plain (r : Rule)
  | withBackend (r : Rule)
  | withFreshAxisEnvAndBackend (r : Rule)
  deriving DecidableEq

/-- The rule-selection chain of `_primitive_computation` (xla.py lines
300-312): backend-specific table for the current platform, then
`translations`, then `reduction_translations` (rule receives the
backend), then `initial_style_translations` (rule receives `AxisEnv()`
and the backend), else the `NotImplementedError` naming the primitive.
The error is raised out of the function; nothing catches it (the `try`
at line 315 guards only `c.Build()`). -/
def _primitive_computation_rule {Platform Prim Rule : Type}
    (tbl : TranslationTables Platform Prim Rule) (platform : Platform) (prim : Prim)
    (primName : String) : Except String (RuleCall Rule) :=
  match tbl.backend_specific_translations platform prim with
  | some r => .ok (.plain r)
  | none =>
    match tbl.translations prim with
    | some r => .ok (.plain r)
    | none =>
      match tbl.reduction_translations prim with
      | some r => .ok (.withBackend r)
      | none =>
        match tbl.initial_style_translations prim with
        | some r => .ok (.withFreshAxisEnvAndBackend r)
        | none => .error ("XLA translation rule for " ++ primName ++ " not found")

/-- C4: `_primitive_computation` resolves the lowering rule of a
primitive in exactly the priority order backend-specific, generic,
reduction (invoked with the backend), initial-style (invoked with a
fresh axis environment and the backend); when no table knows the
primitive it fails with the fatal error naming the primitive, and a rule
in a lower-priority table never masks that order. -/
theorem C4_rule_lookup_priority {Platform Prim Rule : Type}
    (tbl : TranslationTables Platform Prim Rule) (platform : Platform) (prim : Prim)
    (primName : String) :
    (∀ r, tbl.backend_specific_translations platform prim = some r →
      _primitive_computation_rule tbl platform prim primName = .ok (.plain r))
    ∧ (∀ r, tbl.backend_specific_translations platform prim = none →
        tbl.translations prim = some r →
        _primitive_computation_rule tbl platform prim primName = .ok (.plain r))
    ∧ (∀ r, tbl.backend_specific_translations platform prim = none →
        tbl.translations prim = none →
        tbl.reduction_translations prim = some r →
        _primitive_computation_rule tbl platform prim primName = .ok (.withBackend r))
    ∧ (∀ r, tbl.backend_specific_translations platform prim = none →
        tbl.translations prim = none →
        tbl.reduction_translations prim = none →
        tbl.initial_style_translations prim = some r →
        _primitive_computation_rule tbl platform prim primName
          = .ok (.withFreshAxisEnvAndBackend r))
    ∧ (tbl.backend_specific_translations platform prim = none →
        tbl.translations prim = none →
        tbl.reduction_translations prim = none →
        tbl.initial_style_translations prim = none →
        _primitive_computation_rule tbl platform prim primName
          = .error ("XLA translation rule for " ++ primName ++ " not found")) := by
  refine ⟨?_, ?_, ?_, ?_, ?_⟩
  · intro r h1
    unfold _primitive_computation_rule
    rw [h1]
  · intro r h1 h2
    unfold _primitive_computation_rule
    rw [h1, h2]
  · intro r h1 h2 h3
    unfold _primitive_computation_rule
    rw [h1, h2, h3]
  · intro r h1 h2 h3 h4
    unfold _primitive_computation_rule
    rw [h1, h2, h3, h4]
  · intro h1 h2 h3 h4
    unfold _primitive_computation_rule
    rw [h1, h2, h3, h4]

/-- A concrete table assignment for the C4 witness: primitive 0 has a
backend rule on platform 0 and a generic rule; primitive 1 has generic
and reduction rules; primitive 2 only a reduction rule; primitive 3 only
an initial-style rule; primitive 7 none. -/
def c4tbl : TranslationTables Nat Nat Nat where
  backend_specific_translations := fun pl p => if pl = 0 ∧ p = 0 then some 10 else none
  translations := fun p => if p = 0 ∨ p = 1 then some 20 else none
  reduction_translations := fun p => if p = 1 ∨ p = 2 then some 30 else none
  initial_style_translations := fun p => if p = 3 then some 40 else none

/-- C4 (witness): each priority tier observed on the concrete tables,
including a generic rule shadowing a reduction rule, plus the fatal
error naming the unknown primitive. -/
theorem C4_witness :
    _primitive_computation_rule c4tbl 0 0 "p0" = .ok (.plain 10)
    ∧ _primitive_computation_rule c4tbl 1 1 "p1" = .ok (.plain 20)
    ∧ _primitive_computation_rule c4tbl 1 2 "p2" = .ok (.withBackend 30)
    ∧ _primitive_computation_rule c4tbl 1 3 "p3" = .ok (.withFreshAxisEnvAndBackend 40)
    ∧ _primitive_computation_rule c4tbl 1 7 "p7"
        = .error "XLA translation rule for p7 not found" :=
  ⟨(C4_rule_lookup_priority c4tbl 0 0 "p0").1 10 (by decide),
   (C4_rule_lookup_priority c4tbl 1 1 "p1").2.1 20 (by decide) (by decide),
   (C4_rule_lookup_priority c4tbl 1 2 "p2").2.2.1 30 (by decide) (by decide) (by decide),
   (C4_rule_lookup_priority c4tbl 1 3 "p3").2.2.2.1 40 (by decide) (by decide) (by decide)
     (by decide),
   (C4_rule_lookup_priority c4tbl 1 7 "p7").2.2.2.2 (by decide) (by decide) (by decide)
     (by decide)⟩

/-! ### Claim C5: which arguments are transferred by the execution paths
(xla.py lines 323-330, 586-594, 596-605) -/

/-- A runtime argument as the execution paths classify it: the token
singleton, a `DeviceArray` whose `device_buffer` is the
`device_constant` sentinel, or any other concrete value (tagged to tell
them apart). -/
inductive XVal where
  | token
  | deviceConstant (id : Nat)
  | concrete (id : Nat)
  deriving DecidableEq

/-- `x is token`. -/
def isToken (x : XVal) : Bool :=
  match x with
  | .token => true
  | _ => false

/-- `is_device_constant(x)` (xla.py line 725): a `DeviceArray` whose
buffer is the `device_constant` sentinel. -/
def is_device_constant (x : XVal) : Bool :=
  match x with
  | .deviceConstant _ => true
  | _ => false

/-- The argument selection of `_execute_compiled_primitive` (xla.py line
325): `[device_put(x, device) for x in args if x is not token and not
is_device_constant(x)]`.  The selected values, in order, are the ones
handed to `device_put` for transfer. -/
def _execute_compiled_primitive_transfers (args : List XVal) : List XVal :=
  args.filter (fun x => !isToken x && !is_device_constant x)

/-- The argument selection of `_execute_compiled` (xla.py line 588):
identical to the single-primitive path. -/
def _execute_compiled_transfers (args : List XVal) : List XVal :=
  args.filter (fun x => !isToken x && !is_device_constant x)

/-- The argument selection of `_execute_replicated` (xla.py lines
598-599): `[[device_put(x, device) for x in args if x is not token] for
device in compiled.local_devices()]` — one full set per local device,
filtered on the token only. -/
def _execute_replicated_transfers (devices : List Nat) (args : List XVal) : List (List XVal) :=
  devices.map (fun _ => args.filter (fun x => !isToken x))

/-- The readback of `_execute_replicated` (xla.py line 603):
`compiled.ExecutePerReplica(input_bufs)[0].destructure()` — only the
entry of replica 0 is destructured and handled. -/
def _execute_replicated_readback {β : Type} (perReplicaOuts : List β) : Option β :=
  perReplicaOuts.get? 0

/-- C5 (counterexample): the claim fails on the multi-replica path.  For
`args = [token, deviceConstant 0, concrete 5]` the single-primitive and
single-replica paths transfer only `concrete 5`, but
`_execute_replicated` (whose filter at xla.py line 599 drops the token
only) selects the device constant for per-device transfer as well. -/
theorem C5_counterexample :
    _execute_compiled_transfers [XVal.token, XVal.deviceConstant 0, XVal.concrete 5]
      = [XVal.concrete 5]
    ∧ _execute_compiled_primitive_transfers
        [XVal.token, XVal.deviceConstant 0, XVal.concrete 5] = [XVal.concrete 5]
    ∧ _execute_replicated_transfers [0] [XVal.token, XVal.deviceConstant 0, XVal.concrete 5]
      = [[XVal.deviceConstant 0, XVal.concrete 5]] := by
  refine ⟨?_, ?_, ?_⟩
  · rfl
  · rfl
  · rfl

/-- C5 (amended): on the single-primitive and single-replica paths the
values handed to `device_put`, in order, are exactly the arguments that
are neither the token nor device constants; the multi-replica path
instead hands over one full argument set per participating device from
which only the token has been dropped (device constants are *not*
excluded there, contrary to the claim), and it reads back only replica
0's outputs. -/
theorem C5_transfer_selection (args : List XVal) (devices : List Nat) :
    ((∀ x, x ∈ _execute_compiled_transfers args
        ↔ x ∈ args ∧ x ≠ XVal.token ∧ is_device_constant x = false)
      ∧ List.Sublist (_execute_compiled_transfers args) args)
    ∧ _execute_compiled_primitive_transfers args = _execute_compiled_transfers args
    ∧ ((_execute_replicated_transfers devices args).length = devices.length
      ∧ ∀ l ∈ _execute_replicated_transfers devices args,
          (∀ x, x ∈ l ↔ x ∈ args ∧ x ≠ XVal.token) ∧ List.Sublist l args)
    ∧ (∀ (β : Type) (o : β) (rest : List β),
        _execute_replicated_readback (o :: rest) = some o) := by
  refine ⟨⟨?_, ?_⟩, rfl, ⟨?_, ?_⟩, ?_⟩
  · intro x
    rw [_execute_compiled_transfers, List.mem_filter]
    constructor
    · rintro ⟨hmem, hsel⟩
      refine ⟨hmem, ?_, ?_⟩
      · intro hx
        subst hx
        simp [isToken] at hsel
      · cases x with
        | token => simp [isToken] at hsel
        | deviceConstant i => simp [is_device_constant] at hsel
        | concrete i => rfl
    · rintro ⟨hmem, htok, hdc⟩
      refine ⟨hmem, ?_⟩
      cases x with
      | token => exact absurd rfl htok
      | deviceConstant i => simp [is_device_constant] at hdc
      | concrete i => rfl
  · exact List.filter_sublist args
  · rw [_execute_replicated_transfers, List.length_map]
  · intro l hl
    rw [_execute_replicated_transfers, List.mem_map] at hl
    obtain ⟨d, _, hld⟩ := hl
    subst hld
    constructor
    · intro x
      rw [List.mem_filter]
      constructor
      · rintro ⟨hmem, hin⟩
        refine ⟨hmem, ?_⟩
        intro hx
        subst hx
        simp [isToken] at hin
      · rintro ⟨hmem, htok⟩
        refine ⟨hmem, ?_⟩
        cases x with
        | token => exact absurd rfl htok
        | deviceConstant i => rfl
        | concrete i => rfl
    · exact List.filter_sublist args
  · intro β o rest
    rfl

/-- C5 (witness): the amended transfer selection evaluated on a concrete
argument list and two devices. -/
theorem C5_witness :
    ((∀ x, x ∈ _execute_compiled_transfers
          [XVal.token, XVal.deviceConstant 0, XVal.concrete 5]
        ↔ x ∈ [XVal.token, XVal.deviceConstant 0, XVal.concrete 5]
          ∧ x ≠ XVal.token ∧ is_device_constant x = false)
      ∧ List.Sublist
          (_execute_compiled_transfers [XVal.token, XVal.deviceConstant 0, XVal.concrete 5])
          [XVal.token, XVal.deviceConstant 0, XVal.concrete 5])
    ∧ _execute_compiled_primitive_transfers [XVal.token, XVal.deviceConstant 0, XVal.concrete 5]
      = _execute_compiled_transfers [XVal.token, XVal.deviceConstant 0, XVal.concrete 5]
    ∧ ((_execute_replicated_transfers [3, 4]
          [XVal.token, XVal.deviceConstant 0, XVal.concrete 5]).length = [3, 4].length
      ∧ ∀ l ∈ _execute_replicated_transfers [3, 4]
            [XVal.token, XVal.deviceConstant 0, XVal.concrete 5],
          (∀ x, x ∈ l ↔ x ∈ [XVal.token, XVal.deviceConstant 0, XVal.concrete 5]
            ∧ x ≠ XVal.token)
            ∧ List.Sublist l [XVal.token, XVal.deviceConstant 0, XVal.concrete 5])
    ∧ (∀ (β : Type) (o : β) (rest : List β),
        _execute_replicated_readback (o :: rest) = some o) :=
  C5_transfer_selection [XVal.token, XVal.deviceConstant 0, XVal.concrete 5] [3, 4]

/-! ### Claims C8 and C9: `DeviceArray` state — `force`, `_value`,
`delete`, `block_until_ready` (xla.py lines 697-801, 928-939) -/

/-- The `device_buffer` slot of a `DeviceValue`: a real backend buffer
(tagged by an id), the `device_constant` sentinel (line 722), or the
`deleted_buffer` sentinel (line 719). -/
inductive BufferState where
  | real (id : Nat)
  | deviceConst
  | deleted
  deriving DecidableEq

/-- The mutable state of a `DeviceArray` (lines 731-760): its buffer
slot, the host cache `npy_value` (`_npy_value` in the source), the
pending `lazy_expr` (`_lazy_expr`), and the
shape of its `aval`. -/
structure MDeviceArray where
  device_buffer : BufferState
  npy_value : Option (Tensor Int)
  lazy_expr : LazyExpr
  avalShape : List Nat

/-- `x.ndim = len(self.aval.shape)` (line 776). -/
def MDeviceArray.ndim (a : MDeviceArray) : Nat := a.avalShape.length

/-- `DeviceValue._check_if_deleted` (xla.py lines 702-704). -/
def MDeviceArray._check_if_deleted (a : MDeviceArray) : Except String Unit :=
  if a.device_buffer = BufferState.deleted
  then Except.error "DeviceValue has been deleted." else Except.ok ()

/-- `DeviceArray.delete` (xla.py lines 788-801): it first calls
`self.device_buffer.delete()` and only then installs the
`deleted_buffer` sentinel and clears the host cache.  Only a real
backend buffer has a `delete` method: on the `device_constant` and
`deleted_buffer` sentinels (plain `object`s) the very first step raises
`AttributeError`, before any state change. -/
def MDeviceArray.delete (a : MDeviceArray) : Except String MDeviceArray :=
  match a.device_buffer with
  | .real _ =>
    Except.ok { a with device_buffer := BufferState.deleted, npy_value := none }
  | _ => Except.error "AttributeError"

/-- `force(x)` (xla.py lines 928-936) at the state level.  If the lazy
expression is the trivial identity (`LazyArrayVar` source with `dims ==
tuple(range(x.ndim))`) the handle is returned unchanged; otherwise
`apply_primitive(force_p, x)` runs the staged expression and its result
handler wraps the fresh output buffer (id supplied here by the caller)
in a new `DeviceArray` carrying `lazy_array(aval.shape)` (the result
handler at lines 660-666 always builds the identity expression). -/
def force (a : MDeviceArray) (fresh : Nat) : MDeviceArray :=
  if a.lazy_expr.input = LazyInput.arrayVar
      ∧ a.lazy_expr.dims = (List.range a.ndim).map some then a
  else
    { device_buffer := BufferState.real fresh, npy_value := none,
      lazy_expr := lazy_array a.avalShape, avalShape := a.avalShape }

/-- `DeviceArray._value` (xla.py lines 749-760): check for deletion; on
a cache miss either evaluate the lazy expression on the host (constant
backing; `eval_lazy_expr` can itself fail, e.g. on `Eye`) or force the
buffer, reset the lazy expression to the identity, and read the buffer
back (`to_py`, modelled by `readback` on the buffer id).  Returns the
updated handle and the host value. -/
def MDeviceArray._value (a : MDeviceArray) (readback : Nat → Tensor Int) (fresh : Nat) :
    Except String (MDeviceArray × Tensor Int) :=
  match a._check_if_deleted with
  | .error e => Except.error e
  | .ok _ =>
    match a.npy_value with
    | some v => Except.ok (a, v)
    | none =>
      match hb : a.device_buffer with
      | .deviceConst =>
        match eval_lazy_expr a.lazy_expr none with
        | some v => Except.ok ({ a with npy_value := some v }, v)
        | none => Except.error "AttributeError"
      | .real i =>
        let forced := force a fresh
        let b := match forced.device_buffer with | .real j => j | _ => i
        Except.ok ({ a with
                      device_buffer := forced.device_buffer,
                      lazy_expr := lazy_array a.avalShape,
                      npy_value := some (readback b) }, readback b)
      | .deleted => Except.error "DeviceValue has been deleted."

/-- `DeviceValue.block_until_ready` (xla.py lines 706-717): check for
deletion, then call `block_host_until_ready()` on the buffer — a method
only real backend buffers have (the `device_constant` sentinel is a
plain `object`, so the call raises `AttributeError`). -/
def MDeviceArray.block_until_ready (a : MDeviceArray) : Except String MDeviceArray :=
  match a._check_if_deleted with
  | .error e => Except.error e
  | .ok _ =>
    match a.device_buffer with
    | .real _ => Except.ok a
    | _ => Except.error "AttributeError"

/-- The trivial-identity branch of `force` (xla.py line 933). -/
theorem force_trivial (a : MDeviceArray) (f : Nat)
    (h1 : a.lazy_expr.input = LazyInput.arrayVar)
    (h2 : a.lazy_expr.dims = (List.range a.ndim).map some) : force a f = a := by
  rw [force, if_pos ⟨h1, h2⟩]

/-- C8: forcing a `DeviceArray` whose lazy expression is already the
trivial identity (`ArrayVar` source, `dims` the identity over the rank)
returns the very same handle — same buffer, same cache — and forcing
twice gives the same handle as forcing once, because a non-trivial
force installs `lazy_array(aval.shape)`, which the trivial-identity
test then accepts. -/
theorem C8_force_idempotent :
    (∀ (a : MDeviceArray) (f : Nat),
      a.lazy_expr.input = LazyInput.arrayVar →
      a.lazy_expr.dims = (List.range a.ndim).map some →
      force a f = a)
    ∧ (∀ (a : MDeviceArray) (f1 f2 : Nat), force (force a f1) f2 = force a f1) := by
  refine ⟨force_trivial, ?_⟩
  intro a f1 f2
  by_cases h : a.lazy_expr.input = LazyInput.arrayVar
      ∧ a.lazy_expr.dims = (List.range a.ndim).map some
  · rw [force_trivial a f1 h.1 h.2]
    exact force_trivial a f2 h.1 h.2
  · have h1 : force a f1
        = { device_buffer := BufferState.real f1, npy_value := none,
            lazy_expr := lazy_array a.avalShape, avalShape := a.avalShape } := by
      rw [force, if_neg h]
    rw [h1]
    exact force_trivial _ f2 rfl rfl

/-- C8 (witness): the no-op on a concrete identity-backed handle, and
double force on a concrete transposed handle. -/
theorem C8_witness :
    force ⟨BufferState.real 7, none, lazy_array [2, 3], [2, 3]⟩ 9
      = ⟨BufferState.real 7, none, lazy_array [2, 3], [2, 3]⟩
    ∧ force (force ⟨BufferState.real 7, none,
        lazy_transpose (lazy_array [2, 3]) [1, 0], [3, 2]⟩ 9) 11
      = force ⟨BufferState.real 7, none,
          lazy_transpose (lazy_array [2, 3]) [1, 0], [3, 2]⟩ 9 :=
  ⟨C8_force_idempotent.1 ⟨BufferState.real 7, none, lazy_array [2, 3], [2, 3]⟩ 9
      rfl (by decide),
   C8_force_idempotent.2 ⟨BufferState.real 7, none,
      lazy_transpose (lazy_array [2, 3]) [1, 0], [3, 2]⟩ 9 11⟩

/-- C9 (counterexample): the claim fails for a constant-backed value.
`delete()` first runs `self.device_buffer.delete()` (line 799), but the
`device_constant` sentinel is a plain `object` with no `delete` method,
so the call raises `AttributeError` *before* the sentinel swap: the
handle never reaches the Deleted state, and reading its contents
afterwards still succeeds (here: an iota constant evaluated on the
host). -/
theorem C9_counterexample :
    MDeviceArray.delete ⟨BufferState.deviceConst, none, lazy_iota .int32 3, [3]⟩
      = Except.error "AttributeError"
    ∧ ∃ p, MDeviceArray._value ⟨BufferState.deviceConst, none, lazy_iota .int32 3, [3]⟩
        (fun _ => ⟨.int32, [3], fun _ => 0⟩) 0 = Except.ok p :=
  ⟨rfl, ⟨_, rfl⟩⟩

/-- C9 (amended): for a handle backed by a *real* buffer, `delete()`
succeeds and is terminal: the buffer slot becomes the `deleted_buffer`
sentinel, the host cache is cleared, every subsequent content read
(`_value`, `block_until_ready`) fails with the deletion error, and a
second `delete()` also fails (the sentinel has no `delete` method).
For sentinel-backed handles (`device_constant`, already-deleted)
`delete()` instead raises `AttributeError` without changing state. -/
theorem C9_delete_terminal (a : MDeviceArray) (i : Nat) (readback : Nat → Tensor Int)
    (fresh : Nat) (h : a.device_buffer = BufferState.real i) :
    ∃ a2, a.delete = Except.ok a2
      ∧ a2.device_buffer = BufferState.deleted
      ∧ a2.npy_value = none
      ∧ a2._value readback fresh = Except.error "DeviceValue has been deleted."
      ∧ a2.block_until_ready = Except.error "DeviceValue has been deleted."
      ∧ a2.delete = Except.error "AttributeError" := by
  refine ⟨{ a with device_buffer := BufferState.deleted, npy_value := none },
    ?_, rfl, rfl, ?_, ?_, ?_⟩
  · rw [MDeviceArray.delete, h]
  · rw [MDeviceArray._value, MDeviceArray._check_if_deleted]
    rfl
  · rw [MDeviceArray.block_until_ready, MDeviceArray._check_if_deleted]
    rfl
  · rw [MDeviceArray.delete]

/-- C9 (witness): the terminal-deletion theorem on a concrete
real-buffer handle. -/
theorem C9_witness :
    ∃ a2, MDeviceArray.delete ⟨BufferState.real 4, none, lazy_array [2], [2]⟩
        = Except.ok a2
      ∧ a2.device_buffer = BufferState.deleted
      ∧ a2.npy_value = none
      ∧ a2._value (fun _ => ⟨.int32, [2], fun _ => 0⟩) 5
          = Except.error "DeviceValue has been deleted."
      ∧ a2.block_until_ready = Except.error "DeviceValue has been deleted."
      ∧ a2.delete = Except.error "AttributeError" :=
  C9_delete_terminal ⟨BufferState.real 4, none, lazy_array [2], [2]⟩ 4
    (fun _ => ⟨.int32, [2], fun _ => 0⟩) 5 rfl

/-! ### Claim C6: configuration checks of `_xla_callable`
(xla.py lines 519-562, using `jaxpr_replicas` lines 476-489 and
`jaxpr_has_pmap` lines 491-503) -/

/-- An equation of a traced jaxpr, as far as the replica accounting
reads it: an equation carrying a bound subjaxpr (with its
`params.get('axis_size', 1)`), an initial-style primitive whose params
carry sub-jaxprs, or a plain primitive (recording whether `'pmap'`
occurs in its name).  A jaxpr is its equation list. -/
inductive Eqn where
  | subjaxpr (axisSize : Nat) (sub : List Eqn)
  | initialStyle (subs : List (List Eqn))
  | prim (pmapInName : Bool)

mutual
/-- `eqn_replicas` (xla.py lines 479-489). -/
def eqn_replicas : Eqn → Nat
  | .subjaxpr a sub => a * jaxpr_replicas sub
  | .initialStyle subs => subs_replicas subs
  | .prim _ => 1
/-- `jaxpr_replicas` (xla.py lines 476-477):
`max(it.chain([1], (eqn_replicas(eqn) for eqn in jaxpr.eqns)))`. -/
def jaxpr_replicas : List Eqn → Nat
  | [] => 1
  | e :: es => max (eqn_replicas e) (jaxpr_replicas es)
/-- The `max(it.chain([1], nums))` over the sub-jaxpr params of an
initial-style equation (xla.py lines 484-487). -/
def subs_replicas : List (List Eqn) → Nat
  | [] => 1
  | j :: js => max (jaxpr_replicas j) (subs_replicas js)
end

mutual
/-- `eqn_has_pmap` (xla.py lines 494-503). -/
def eqn_has_pmap : Eqn → Bool
  | .subjaxpr _ sub => jaxpr_has_pmap sub
  | .initialStyle subs => subs_has_pmap subs
  | .prim b => b
/-- `jaxpr_has_pmap` (xla.py lines 491-492). -/
def jaxpr_has_pmap : List Eqn → Bool
  | [] => false
  | e :: es => eqn_has_pmap e || jaxpr_has_pmap es
/-- The `any(...)` over the sub-jaxpr params of an initial-style
equation (xla.py lines 499-501). -/
def subs_has_pmap : List (List Eqn) → Bool
  | [] => false
  | j :: js => jaxpr_has_pmap j || subs_has_pmap js
end

/-- The stages of `_xla_callable` after tracing that C6 talks about:
building the XLA computation (`c.Build`, line 556) and invoking backend
compilation (`built.Compile`, line 561). -/
inductive XlaEvent where
  | built
  | compiled
  deriving DecidableEq

/-- The post-trace control flow of `_xla_callable` (xla.py lines
532-562): the replica-vs-device check (lines 533-537) and the
multi-host check (lines 539-542) run before anything is built; the
explicit-device-assignment check (lines 552-553) runs after `c.Build`
but before `built.Compile`.  Returns the stages reached and the raised
error, if any.  (The second message is truncated after its first
clause and the third drops the apostrophe of "can't"; the guards are
verbatim.) -/
def _xla_callable_checks (jaxpr : List Eqn) (deviceAssigned : Bool)
    (deviceCount hostCount : Nat) : List XlaEvent × Option String :=
  if deviceCount < jaxpr_replicas jaxpr then
    ([], some ("compiling computation that requires " ++ toString (jaxpr_replicas jaxpr)
      ++ " replicas, but only " ++ toString deviceCount ++ " XLA devices are available"))
  else if 1 < hostCount ∧ (1 < jaxpr_replicas jaxpr ∨ jaxpr_has_pmap jaxpr = true) then
    ([], some "jit of multi-host pmap not implemented")
  else if deviceAssigned = true ∧ 1 < jaxpr_replicas jaxpr then
    ([XlaEvent.built], some "can not specify device assignment for jit-of-pmap")
  else
    ([XlaEvent.built, XlaEvent.compiled], none)

/-- C6: whenever the traced program needs more replicas than there are
devices, or several hosts are combined with replication or nested pmap,
or an explicit device assignment is combined with more than one
replica, `_xla_callable` raises a configuration error and the
`built.Compile` stage is never reached (the errors propagate; nothing
retries them); when none of the three conditions holds, no error is
raised and compilation is reached.  The insufficient-devices error
names both counts and fires before anything is even built. -/
theorem C6_config_errors (jaxpr : List Eqn) (deviceAssigned : Bool)
    (deviceCount hostCount : Nat) :
    (deviceCount < jaxpr_replicas jaxpr
        ∨ (1 < hostCount ∧ (1 < jaxpr_replicas jaxpr ∨ jaxpr_has_pmap jaxpr = true))
        ∨ (deviceAssigned = true ∧ 1 < jaxpr_replicas jaxpr) →
      (∃ m, (_xla_callable_checks jaxpr deviceAssigned deviceCount hostCount).2 = some m)
      ∧ XlaEvent.compiled ∉ (_xla_callable_checks jaxpr deviceAssigned deviceCount hostCount).1)
    ∧ (¬ deviceCount < jaxpr_replicas jaxpr →
      ¬ (1 < hostCount ∧ (1 < jaxpr_replicas jaxpr ∨ jaxpr_has_pmap jaxpr = true)) →
      ¬ (deviceAssigned = true ∧ 1 < jaxpr_replicas jaxpr) →
      (_xla_callable_checks jaxpr deviceAssigned deviceCount hostCount).2 = none
      ∧ (_xla_callable_checks jaxpr deviceAssigned deviceCount hostCount).1
        = [XlaEvent.built, XlaEvent.compiled])
    ∧ (deviceCount < jaxpr_replicas jaxpr →
      (_xla_callable_checks jaxpr deviceAssigned deviceCount hostCount).1 = []
      ∧ (_xla_callable_checks jaxpr deviceAssigned deviceCount hostCount).2
        = some ("compiling computation that requires " ++ toString (jaxpr_replicas jaxpr)
          ++ " replicas, but only " ++ toString deviceCount
          ++ " XLA devices are available")) := by
  refine ⟨?_, ?_, ?_⟩
  · intro hcond
    unfold _xla_callable_checks
    by_cases h1 : deviceCount < jaxpr_replicas jaxpr
    · rw [if_pos h1]
      exact ⟨⟨_, rfl⟩, by simp⟩
    · rw [if_neg h1]
      by_cases h2 : 1 < hostCount ∧ (1 < jaxpr_replicas jaxpr ∨ jaxpr_has_pmap jaxpr = true)
      · rw [if_pos h2]
        exact ⟨⟨_, rfl⟩, by simp⟩
      · rw [if_neg h2]
        by_cases h3 : deviceAssigned = true ∧ 1 < jaxpr_replicas jaxpr
        · rw [if_pos h3]
          refine ⟨⟨_, rfl⟩, ?_⟩
          simp
        · rcases hcond with h | h | h
          · exact absurd h h1
          · exact absurd h h2
          · exact absurd h h3
  · intro h1 h2 h3
    unfold _xla_callable_checks
    rw [if_neg h1, if_neg h2, if_neg h3]
    exact ⟨rfl, rfl⟩
  · intro h1
    unfold _xla_callable_checks
    rw [if_pos h1]
    exact ⟨rfl, rfl⟩

/-- C6 (witness): a jaxpr holding one pmap-style equation of axis size
2 needs 2 replicas; with a single device its compilation request fails
before the compile stage. -/
theorem C6_witness :
    ((∃ m, (_xla_callable_checks [Eqn.subjaxpr 2 []] false 1 1).2 = some m)
      ∧ XlaEvent.compiled ∉ (_xla_callable_checks [Eqn.subjaxpr 2 []] false 1 1).1) :=
  (C6_config_errors [Eqn.subjaxpr 2 []] false 1 1).1 (Or.inl (by decide))

/-! ### Claim C7: replica groups (xla.py lines 456-474) -/

/-- `axis_read(axis_env, axis_name)` (xla.py lines 456-457): the
largest enumeration index whose name matches (`max(i for i, name in
enumerate(axis_env.names) if name == axis_name)`); `max` of an empty
generator raises `ValueError`, modelled as `none`. -/
def axis_read {α : Type} [DecidableEq α] (names : List α) (axis_name : α) : Option Nat :=
  ((List.range names.length).filter
    (fun i => decide (names.get? i = some axis_name))).max?

/-- The `name` argument of `axis_groups`: one axis name or a tuple of
names (xla.py lines 460-463). -/
inductive AxisName (α : Type) where
  | single (a : α)
  | tuple (as : List α)

/-- `tuple(map(partial(axis_read, axis_env), name))` (xla.py line 462);
a missing name raises inside `axis_read`. -/
def resolveAll {α : Type} [DecidableEq α] (names : List α) : List α → Option (List Nat)
  | [] => some []
  | a :: as =>
    match axis_read names a, resolveAll names as with
    | some i, some l => some (i :: l)
    | _, _ => none

/-- The `mesh_axes` computed by `axis_groups` (xla.py lines 460-463). -/
def resolveAxes {α : Type} [DecidableEq α] (names : List α) :
    AxisName α → Option (List Nat)
  | .single a => (axis_read names a).map (fun i => [i])
  | .tuple as => resolveAll names as

/-- `onp.arange(n)` over replica ids. -/
def npArangeNat (n : Nat) : Tensor Nat :=
  ⟨.int64, [n], fun m => m.getD 0 0⟩

/-- The axes of `range n` not being collapsed, in their original
order. -/
def keptAxes (n : Nat) (src : List Nat) : List Nat :=
  (List.range n).filter (fun a => decide (a ∉ src))

/-- `onp.moveaxis(iota, mesh_axes, onp.arange(len(mesh_axes)))` as the
equivalent `onp.transpose` permutation: the moved axes first, then the
remaining axes in original order. -/
def moveaxisFrontPerm (ndim : Nat) (src : List Nat) : List Nat :=
  src ++ keptAxes ndim src

/-- `onp.take(full_spec, axes)`. -/
def axSizes (full_spec : List Nat) (axes : List Nat) : List Nat :=
  axes.map (fun i => full_spec.getD i 0)

/-- `_axis_groups(nrep, mesh_spec, mesh_axes)` (xla.py lines 466-474).
`divmod` by `prod(mesh_spec) = 0` raises `ZeroDivisionError` and
`assert not ragged` fails on a non-multiple, both modelled as `none`.
The reshape target `(prod(onp.take(full_spec, mesh_axes)), -1)` is the
explicit quotient, and the returned `tuple(map(tuple, groups.T))` is
the list of columns of `groups`. -/
def _axis_groups (nrep : Nat) (mesh_spec mesh_axes : List Nat) :
    Option (List (List Nat)) :=
  if mesh_spec.prod = 0 then none
  else if nrep % mesh_spec.prod ≠ 0 then none
  else
    let full_spec := mesh_spec ++ [nrep / mesh_spec.prod]
    let iota := npReshape (npArangeNat full_spec.prod) full_spec
    let moved := npTranspose iota (moveaxisFrontPerm full_spec.length mesh_axes)
    let gsize := (axSizes full_spec mesh_axes).prod
    let groups := npReshape moved [gsize, full_spec.prod / gsize]
    some ((List.range (full_spec.prod / gsize)).map (fun t =>
      (List.range gsize).map (fun g => groups.data [g, t])))

/-- `axis_groups(axis_env, name)` (xla.py lines 459-464). -/
def axis_groups {α : Type} [DecidableEq α] (nreps : Nat) (names : List α)
    (sizes : List Nat) (name : AxisName α) : Option (List (List Nat)) :=
  (resolveAxes names name).bind (fun mesh_axes => _axis_groups nreps sizes mesh_axes)

/-- Two replica ids agree on every mesh coordinate outside the
collapsed axes. -/
def sameOutside (full_spec mesh_axes : List Nat) (r r2 : Nat) : Prop :=
  ∀ i, i < full_spec.length → i ∉ mesh_axes →
    (unravel full_spec r).getD i 0 = (unravel full_spec r2).getD i 0

/-- The replica id at flat position `s` of the moved-and-flattened
iota: scatter the row-major coordinates of `s` (w.r.t. the permuted
spec) back through the permutation and ravel in the full spec. -/
def groupEntry (full_spec mesh_axes : List Nat) (s : Nat) : Nat :=
  ravel full_spec ((List.range full_spec.length).map (fun i =>
    (unravel (axSizes full_spec (moveaxisFrontPerm full_spec.length mesh_axes)) s).getD
      (posOf i (moveaxisFrontPerm full_spec.length mesh_axes)) 0))

/-! #### Small lemmas for C7 -/

theorem mem_keptAxes {n : Nat} {src : List Nat} {a : Nat} :
    a ∈ keptAxes n src ↔ a < n ∧ a ∉ src := by
  rw [keptAxes, List.mem_filter, List.mem_range, decide_eq_true_eq]

theorem nodup_keptAxes (n : Nat) (src : List Nat) : (keptAxes n src).Nodup :=
  (List.nodup_range n).filter _

theorem posOf_append_left {α : Type} [DecidableEq α] {a : α} {l1 l2 : List α}
    (h : a ∈ l1) : posOf a (l1 ++ l2) = posOf a l1 := by
  induction l1 with
  | nil => cases h
  | cons b t ih =>
    by_cases hb : b = a
    · subst hb
      rw [List.cons_append, posOf_cons_self, posOf_cons_self]
    · rw [List.cons_append, posOf_cons_ne hb, posOf_cons_ne hb,
        ih (by rcases List.mem_cons.1 h with h | h; exact absurd h.symm hb; exact h)]

theorem posOf_append_right {α : Type} [DecidableEq α] {a : α} {l1 l2 : List α}
    (h : a ∉ l1) : posOf a (l1 ++ l2) = l1.length + posOf a l2 := by
  induction l1 with
  | nil => rw [List.nil_append, List.length_nil, Nat.zero_add]
  | cons b t ih =>
    have hb : b ≠ a := fun hc => h (hc ▸ List.mem_cons_self b t)
    rw [List.cons_append, posOf_cons_ne hb, ih (fun hc => h (List.mem_cons_of_mem b hc)),
      List.length_cons]
    omega

theorem posOf_get_nodup {α : Type} [DecidableEq α] {l : List α} (hnd : l.Nodup)
    {j : Nat} (hj : j < l.length) : posOf (l.get ⟨j, hj⟩) l = j := by
  induction l generalizing j with
  | nil => cases hj
  | cons b t ih =>
    cases j with
    | zero => exact posOf_cons_self b t
    | succ j' =>
      have hj' : j' < t.length := by
        rw [List.length_cons] at hj
        omega
      have hget : (b :: t).get ⟨j' + 1, hj⟩ = t.get ⟨j', hj'⟩ := rfl
      have hmem : t.get ⟨j', hj'⟩ ∈ t := List.get_mem t j' hj'
      have hb : b ≠ t.get ⟨j', hj'⟩ := by
        intro hc
        exact (List.nodup_cons.1 hnd).1 (hc ▸ hmem)
      rw [hget, posOf_cons_ne hb, ih (List.nodup_cons.1 hnd).2 hj']

theorem getD_append_lt {α : Type} {l1 l2 : List α} {j : Nat} (h : j < l1.length)
    (d : α) : (l1 ++ l2).getD j d = l1.getD j d := by
  rw [List.getD_eq_getElem?_getD, List.getD_eq_getElem?_getD,
    List.getElem?_append_left h]

theorem getD_append_add {α : Type} (l1 l2 : List α) (j : Nat) (d : α) :
    (l1 ++ l2).getD (l1.length + j) d = l2.getD j d := by
  rw [List.getD_eq_getElem?_getD, List.getD_eq_getElem?_getD]
  have h : (l1 ++ l2)[l1.length + j]? = l2[l1.length + j - l1.length]? :=
    List.getElem?_append_right (Nat.le_add_right _ _)
  rw [h, Nat.add_sub_cancel_left]

theorem valid_of_getD {m sh : List Nat} (hlen : m.length = sh.length)
    (h : ∀ j, j < sh.length → m.getD j 0 < sh.getD j 0) : Valid m sh := by
  rw [Valid, List.forall₂_iff_get]
  refine ⟨hlen, ?_⟩
  intro i h1 h2
  have := h i h2
  rwa [List.getD_eq_getElem m 0 h1, List.getD_eq_getElem sh 0 h2] at this

theorem count_keptAxes (n : Nat) (src : List Nat) (x : Nat) :
    (keptAxes n src).count x = if x < n ∧ x ∉ src then 1 else 0 := by
  by_cases hm : x ∈ keptAxes n src
  · rw [if_pos (mem_keptAxes.1 hm)]
    exact List.count_eq_one_of_mem (nodup_keptAxes n src) hm
  · rw [List.count_eq_zero.2 hm, if_neg]
    intro hc
    exact hm (mem_keptAxes.2 hc)

theorem perm_moveaxis {n : Nat} {src : List Nat} (hnd : src.Nodup)
    (hax : ∀ a ∈ src, a < n) : (moveaxisFrontPerm n src).Perm (List.range n) := by
  rw [List.perm_iff_count]
  intro x
  rw [moveaxisFrontPerm, List.count_append, count_keptAxes]
  by_cases hx : x ∈ src
  · rw [List.count_eq_one_of_mem hnd hx, if_neg (fun hc => hc.2 hx),
      count_range_eq_one (hax x hx)]
  · rw [List.count_eq_zero.2 hx]
    by_cases hxn : x < n
    · rw [if_pos ⟨hxn, hx⟩, count_range_eq_one hxn]
    · rw [if_neg (fun hc => hxn hc.1), List.count_eq_zero.2 (by
        intro hc
        exact hxn (List.mem_range.1 hc))]

theorem axis_read_some {α : Type} [DecidableEq α] {names : List α} {a : α} {i : Nat}
    (h : axis_read names a = some i) : i < names.length ∧ names.get? i = some a := by
  have hm : i ∈ (List.range names.length).filter
      (fun j => decide (names.get? j = some a)) :=
    List.max?_mem (fun x y => max_choice x y) h
  rw [List.mem_filter, List.mem_range, decide_eq_true_eq] at hm
  exact hm

theorem axis_read_isSome {α : Type} [DecidableEq α] {names : List α} {a : α}
    (h : a ∈ names) : ∃ i, axis_read names a = some i := by
  obtain ⟨idx, hidx⟩ := List.mem_iff_get?.1 h
  have hlt : idx < names.length := by
    by_contra hc
    rw [List.get?_eq_none.2 (by omega)] at hidx
    cases hidx
  have hm : idx ∈ (List.range names.length).filter
      (fun j => decide (names.get? j = some a)) := by
    rw [List.mem_filter, List.mem_range, decide_eq_true_eq]
    exact ⟨hlt, hidx⟩
  rcases ho : ((List.range names.length).filter
      (fun j => decide (names.get? j = some a))).max? with _ | v
  · rw [List.max?_eq_none_iff] at ho
    rw [ho] at hm
    cases hm
  · exact ⟨v, ho⟩

theorem resolveAll_some {α : Type} [DecidableEq α] {names : List α} {as : List α}
    (h : ∀ a ∈ as, a ∈ names) :
    ∃ l, resolveAll names as = some l
      ∧ List.Forall₂ (fun a i => axis_read names a = some i) as l := by
  induction as with
  | nil => exact ⟨[], rfl, List.Forall₂.nil⟩
  | cons a as' ih =>
    obtain ⟨i, hi⟩ := axis_read_isSome (h a (List.mem_cons_self a as'))
    obtain ⟨l, hl, hf⟩ := ih (fun b hb => h b (List.mem_cons_of_mem a hb))
    refine ⟨i :: l, ?_, List.Forall₂.cons hi hf⟩
    rw [resolveAll, hi, hl]

theorem forall₂_exists_left {α β : Type} {R : α → β → Prop} {as : List α} {l : List β}
    (h : List.Forall₂ R as l) : ∀ b ∈ l, ∃ a ∈ as, R a b := by
  induction h with
  | nil =>
    intro b hb
    cases hb
  | cons h1 h2 ih =>
    intro b hb
    rcases List.mem_cons.1 hb with hb | hb
    · subst hb
      exact ⟨_, List.mem_cons_self _ _, h1⟩
    · obtain ⟨a, ha, hr⟩ := ih b hb
      exact ⟨a, List.mem_cons_of_mem _ ha, hr⟩

theorem resolved_bounds {α : Type} [DecidableEq α] {names : List α} {as : List α}
    {l : List Nat} (hf : List.Forall₂ (fun a i => axis_read names a = some i) as l) :
    ∀ i ∈ l, i < names.length := by
  intro i hi
  obtain ⟨a, _, hr⟩ := forall₂_exists_left hf i hi
  exact (axis_read_some hr).1

theorem resolved_nodup {α : Type} [DecidableEq α] {names : List α} {as : List α}
    {l : List Nat} (hf : List.Forall₂ (fun a i => axis_read names a = some i) as l)
    (hnd : as.Nodup) : l.Nodup := by
  induction hf with
  | nil => exact List.nodup_nil
  | cons h1 h2 ih =>
    rw [List.nodup_cons] at hnd ⊢
    refine ⟨?_, ih hnd.2⟩
    intro hmem
    obtain ⟨a2, ha2, hr2⟩ := forall₂_exists_left h2 _ hmem
    have he1 := (axis_read_some h1).2
    have he2 := (axis_read_some hr2).2
    rw [he1] at he2
    injection he2 with he
    exact hnd.1 (he ▸ ha2)

theorem axSizes_perm {full : List Nat} {p : List Nat}
    (hp : p.Perm (List.range full.length)) : (axSizes full p).Perm full := by
  have h1 := hp.map (fun i => full.getD i 0)
  rwa [map_getD_range] at h1

theorem axSizes_append (full l1 l2 : List Nat) :
    axSizes full (l1 ++ l2) = axSizes full l1 ++ axSizes full l2 :=
  List.map_append _ l1 l2

theorem reshape_moved_data (full mesh_axes : List Nat) (gs nc g t : Nat) :
    (npReshape (npTranspose (npReshape (npArangeNat full.prod) full)
        (moveaxisFrontPerm full.length mesh_axes)) [gs, nc]).data [g, t]
    = groupEntry full mesh_axes (g * nc + t) := by
  show (ravel full ((List.range full.length).map (fun i =>
      (unravel (axSizes full (moveaxisFrontPerm full.length mesh_axes))
        (g * (nc * 1) + (t * 1 + 0))).getD
        (posOf i (moveaxisFrontPerm full.length mesh_axes)) 0))) / 1
    = groupEntry full mesh_axes (g * nc + t)
  rw [Nat.div_one]
  simp only [Nat.mul_one, Nat.add_zero]
  rfl

theorem axis_groups_eq {nrep : Nat} {mesh_spec : List Nat} (mesh_axes : List Nat)
    (h0 : ¬ mesh_spec.prod = 0) (hdvd : nrep % mesh_spec.prod = 0) :
    _axis_groups nrep mesh_spec mesh_axes
    = some ((List.range ((mesh_spec ++ [nrep / mesh_spec.prod]).prod
        / (axSizes (mesh_spec ++ [nrep / mesh_spec.prod]) mesh_axes).prod)).map
      (fun t => (List.range
          (axSizes (mesh_spec ++ [nrep / mesh_spec.prod]) mesh_axes).prod).map
        (fun g => groupEntry (mesh_spec ++ [nrep / mesh_spec.prod]) mesh_axes
          (g * ((mesh_spec ++ [nrep / mesh_spec.prod]).prod
            / (axSizes (mesh_spec ++ [nrep / mesh_spec.prod]) mesh_axes).prod) + t)))) := by
  rw [_axis_groups, if_neg h0, if_neg (fun h => h hdvd)]
  simp only [reshape_moved_data]

theorem spec_prod_split (full mesh_axes : List Nat) (hnd : mesh_axes.Nodup)
    (hax : ∀ a ∈ mesh_axes, a < full.length) :
    (axSizes full mesh_axes).prod
      * (axSizes full (keptAxes full.length mesh_axes)).prod = full.prod := by
  have hp := perm_moveaxis hnd hax
  have h1 : (axSizes full (moveaxisFrontPerm full.length mesh_axes)).Perm full :=
    axSizes_perm hp
  have h3 := h1.prod_eq
  rwa [moveaxisFrontPerm, axSizes_append, List.prod_append] at h3

theorem groupEntry_unravel (full mesh_axes : List Nat) (hnd : mesh_axes.Nodup)
    (hax : ∀ a ∈ mesh_axes, a < full.length) {s : Nat} (hs : s < full.prod) :
    Valid ((List.range full.length).map (fun i =>
        (unravel (axSizes full (moveaxisFrontPerm full.length mesh_axes)) s).getD
          (posOf i (moveaxisFrontPerm full.length mesh_axes)) 0)) full
    ∧ groupEntry full mesh_axes s < full.prod
    ∧ unravel full (groupEntry full mesh_axes s)
      = (List.range full.length).map (fun i =>
          (unravel (axSizes full (moveaxisFrontPerm full.length mesh_axes)) s).getD
            (posOf i (moveaxisFrontPerm full.length mesh_axes)) 0) := by
  have hp := perm_moveaxis hnd hax
  have hsp : (axSizes full (moveaxisFrontPerm full.length mesh_axes)).prod = full.prod :=
    (axSizes_perm hp).prod_eq
  have hq : Valid (unravel (axSizes full (moveaxisFrontPerm full.length mesh_axes)) s)
      (axSizes full (moveaxisFrontPerm full.length mesh_axes)) :=
    unravel_valid (by rwa [hsp])
  have hvc : Valid ((List.range full.length).map (fun i =>
      (unravel (axSizes full (moveaxisFrontPerm full.length mesh_axes)) s).getD
        (posOf i (moveaxisFrontPerm full.length mesh_axes)) 0)) full := by
    apply valid_of_getD
    · rw [List.length_map, List.length_range]
    · intro j hj
      rw [getD_map_range hj]
      have hjm : j ∈ moveaxisFrontPerm full.length mesh_axes :=
        hp.mem_iff.2 (List.mem_range.2 hj)
      have hpos : posOf j (moveaxisFrontPerm full.length mesh_axes)
          < (moveaxisFrontPerm full.length mesh_axes).length := posOf_lt_length hjm
      have hb := valid_getD hq (show posOf j (moveaxisFrontPerm full.length mesh_axes)
          < (axSizes full (moveaxisFrontPerm full.length mesh_axes)).length by
        rw [axSizes, List.length_map]
        exact hpos)
      have hmap : (axSizes full (moveaxisFrontPerm full.length mesh_axes)).getD
          (posOf j (moveaxisFrontPerm full.length mesh_axes)) 0
          = full.getD ((moveaxisFrontPerm full.length mesh_axes).getD
              (posOf j (moveaxisFrontPerm full.length mesh_axes)) 0) 0 :=
        getD_map _ hpos 0 0
      rw [getD_posOf hjm] at hmap
      rw [hmap] at hb
      exact hb
  exact ⟨hvc, ravel_lt hvc, unravel_ravel hvc⟩

theorem groupEntry_lt_of_lt {full mesh_axes : List Nat} {g t : Nat}
    (hnd : mesh_axes.Nodup) (hax : ∀ a ∈ mesh_axes, a < full.length)
    (hg : g < (axSizes full mesh_axes).prod)
    (ht : t < (axSizes full (keptAxes full.length mesh_axes)).prod) :
    g * (axSizes full (keptAxes full.length mesh_axes)).prod + t < full.prod := by
  have hsplit := spec_prod_split full mesh_axes hnd hax
  have h1 : g * (axSizes full (keptAxes full.length mesh_axes)).prod + t
      < (g + 1) * (axSizes full (keptAxes full.length mesh_axes)).prod := by
    rw [Nat.add_mul, Nat.one_mul]
    omega
  have h2 : (g + 1) * (axSizes full (keptAxes full.length mesh_axes)).prod
      ≤ (axSizes full mesh_axes).prod
        * (axSizes full (keptAxes full.length mesh_axes)).prod :=
    Nat.mul_le_mul_right _ (by omega)
  omega

theorem groupEntry_split {full mesh_axes : List Nat} (hnd : mesh_axes.Nodup)
    (hax : ∀ a ∈ mesh_axes, a < full.length) {g t : Nat}
    (hg : g < (axSizes full mesh_axes).prod)
    (ht : t < (axSizes full (keptAxes full.length mesh_axes)).prod) :
    unravel (axSizes full (moveaxisFrontPerm full.length mesh_axes))
      (g * (axSizes full (keptAxes full.length mesh_axes)).prod + t)
    = unravel (axSizes full mesh_axes) g
      ++ unravel (axSizes full (keptAxes full.length mesh_axes)) t := by
  rw [moveaxisFrontPerm, axSizes_append]
  exact unravel_append hg ht

theorem groupEntry_coord_mesh {full mesh_axes : List Nat} (hnd : mesh_axes.Nodup)
    (hax : ∀ a ∈ mesh_axes, a < full.length) {g t : Nat}
    (hg : g < (axSizes full mesh_axes).prod)
    (ht : t < (axSizes full (keptAxes full.length mesh_axes)).prod) :
    ∀ i ∈ mesh_axes,
      (unravel full (groupEntry full mesh_axes
          (g * (axSizes full (keptAxes full.length mesh_axes)).prod + t))).getD i 0
        = (unravel (axSizes full mesh_axes) g).getD (posOf i mesh_axes) 0 := by
  intro i hi
  obtain ⟨hvc, hlt, hun⟩ := groupEntry_unravel full mesh_axes hnd hax
    (groupEntry_lt_of_lt hnd hax hg ht)
  rw [hun, getD_map_range (hax i hi), groupEntry_split hnd hax hg ht,
    moveaxisFrontPerm, posOf_append_left hi]
  have hpos : posOf i mesh_axes < mesh_axes.length := posOf_lt_length hi
  exact getD_append_lt (by
    rw [unravel_length, axSizes, List.length_map]
    exact hpos) 0

theorem groupEntry_coord_kept {full mesh_axes : List Nat} (hnd : mesh_axes.Nodup)
    (hax : ∀ a ∈ mesh_axes, a < full.length) {g t : Nat}
    (hg : g < (axSizes full mesh_axes).prod)
    (ht : t < (axSizes full (keptAxes full.length mesh_axes)).prod) :
    ∀ i, i < full.length → i ∉ mesh_axes →
      (unravel full (groupEntry full mesh_axes
          (g * (axSizes full (keptAxes full.length mesh_axes)).prod + t))).getD i 0
        = (unravel (axSizes full (keptAxes full.length mesh_axes)) t).getD
            (posOf i (keptAxes full.length mesh_axes)) 0 := by
  intro i hin hni
  obtain ⟨hvc, hlt, hun⟩ := groupEntry_unravel full mesh_axes hnd hax
    (groupEntry_lt_of_lt hnd hax hg ht)
  rw [hun, getD_map_range hin, groupEntry_split hnd hax hg ht,
    moveaxisFrontPerm, posOf_append_right hni]
  have hlenA : (unravel (axSizes full mesh_axes) g).length = mesh_axes.length := by
    rw [unravel_length, axSizes, List.length_map]
  rw [← hlenA, getD_append_add]

theorem get_map_eq {α β : Type} (f : α → β) (l : List α) (j : Nat)
    (h1 : j < (l.map f).length) (h2 : j < l.length) :
    (l.map f).get ⟨j, h1⟩ = f (l.get ⟨j, h2⟩) := by
  simp

theorem getD_eq_get {α : Type} (l : List α) (d : α) {j : Nat} (h : j < l.length) :
    l.getD j d = l.get ⟨j, h⟩ := by
  rw [List.getD_eq_getElem l d h, List.get_eq_getElem]

theorem kept_coords_groupEntry {full mesh_axes : List Nat} (hnd : mesh_axes.Nodup)
    (hax : ∀ a ∈ mesh_axes, a < full.length) {g t : Nat}
    (hg : g < (axSizes full mesh_axes).prod)
    (ht : t < (axSizes full (keptAxes full.length mesh_axes)).prod) :
    (keptAxes full.length mesh_axes).map (fun i =>
        (unravel full (groupEntry full mesh_axes
          (g * (axSizes full (keptAxes full.length mesh_axes)).prod + t))).getD i 0)
      = unravel (axSizes full (keptAxes full.length mesh_axes)) t := by
  apply List.ext_get
  · rw [List.length_map, unravel_length, axSizes, List.length_map]
  · intro j h1 h2
    have hjk : j < (keptAxes full.length mesh_axes).length := by
      rwa [List.length_map] at h1
    rw [get_map_eq _ _ j h1 hjk]
    have hmem : (keptAxes full.length mesh_axes).get ⟨j, hjk⟩
        ∈ keptAxes full.length mesh_axes := List.get_mem _ j hjk
    have hmk := mem_keptAxes.1 hmem
    rw [groupEntry_coord_kept hnd hax hg ht _ hmk.1 hmk.2,
      posOf_get_nodup (nodup_keptAxes full.length mesh_axes) hjk,
      getD_eq_get _ 0 h2]

theorem mesh_coords_groupEntry {full mesh_axes : List Nat} (hnd : mesh_axes.Nodup)
    (hax : ∀ a ∈ mesh_axes, a < full.length) {g t : Nat}
    (hg : g < (axSizes full mesh_axes).prod)
    (ht : t < (axSizes full (keptAxes full.length mesh_axes)).prod) :
    mesh_axes.map (fun i =>
        (unravel full (groupEntry full mesh_axes
          (g * (axSizes full (keptAxes full.length mesh_axes)).prod + t))).getD i 0)
      = unravel (axSizes full mesh_axes) g := by
  apply List.ext_get
  · rw [List.length_map, unravel_length, axSizes, List.length_map]
  · intro j h1 h2
    have hjk : j < mesh_axes.length := by
      rwa [List.length_map] at h1
    rw [get_map_eq _ _ j h1 hjk]
    have hmem : mesh_axes.get ⟨j, hjk⟩ ∈ mesh_axes := List.get_mem _ j hjk
    rw [groupEntry_coord_mesh hnd hax hg ht _ hmem,
      posOf_get_nodup hnd hjk, getD_eq_get _ 0 h2]

theorem groupEntry_surj {full mesh_axes : List Nat} (hnd : mesh_axes.Nodup)
    (hax : ∀ a ∈ mesh_axes, a < full.length) {r : Nat} (hr : r < full.prod) :
    ravel (axSizes full mesh_axes)
        (mesh_axes.map (fun i => (unravel full r).getD i 0))
      < (axSizes full mesh_axes).prod
    ∧ ravel (axSizes full (keptAxes full.length mesh_axes))
        ((keptAxes full.length mesh_axes).map (fun i => (unravel full r).getD i 0))
      < (axSizes full (keptAxes full.length mesh_axes)).prod
    ∧ groupEntry full mesh_axes
        (ravel (axSizes full mesh_axes)
            (mesh_axes.map (fun i => (unravel full r).getD i 0))
          * (axSizes full (keptAxes full.length mesh_axes)).prod
          + ravel (axSizes full (keptAxes full.length mesh_axes))
              ((keptAxes full.length mesh_axes).map (fun i => (unravel full r).getD i 0)))
      = r := by
  have hcr : Valid (unravel full r) full := unravel_valid hr
  have hvg : Valid (mesh_axes.map (fun i => (unravel full r).getD i 0))
      (axSizes full mesh_axes) := by
    apply valid_of_getD
    · rw [List.length_map, axSizes, List.length_map]
    · intro j hj
      have hjm : j < mesh_axes.length := by rwa [axSizes, List.length_map] at hj
      rw [getD_map (fun i => (unravel full r).getD i 0) hjm 0 0]
      have hmap2 : (axSizes full mesh_axes).getD j 0
          = full.getD (mesh_axes.getD j 0) 0 := getD_map _ hjm 0 0
      rw [hmap2]
      have hmem : mesh_axes.getD j 0 ∈ mesh_axes := by
        rw [getD_eq_get _ 0 hjm]
        exact List.get_mem _ j hjm
      exact valid_getD hcr (hax _ hmem)
  have hvt : Valid ((keptAxes full.length mesh_axes).map
      (fun i => (unravel full r).getD i 0))
      (axSizes full (keptAxes full.length mesh_axes)) := by
    apply valid_of_getD
    · rw [List.length_map, axSizes, List.length_map]
    · intro j hj
      have hjm : j < (keptAxes full.length mesh_axes).length := by
        rwa [axSizes, List.length_map] at hj
      rw [getD_map (fun i => (unravel full r).getD i 0) hjm 0 0]
      have hmap2 : (axSizes full (keptAxes full.length mesh_axes)).getD j 0
          = full.getD ((keptAxes full.length mesh_axes).getD j 0) 0 := getD_map _ hjm 0 0
      rw [hmap2]
      have hmem : (keptAxes full.length mesh_axes).getD j 0
          ∈ keptAxes full.length mesh_axes := by
        rw [getD_eq_get _ 0 hjm]
        exact List.get_mem _ j hjm
      exact valid_getD hcr (mem_keptAxes.1 hmem).1
  refine ⟨ravel_lt hvg, ravel_lt hvt, ?_⟩
  show ravel full ((List.range full.length).map (fun i =>
      (unravel (axSizes full (moveaxisFrontPerm full.length mesh_axes))
        (ravel (axSizes full mesh_axes)
            (mesh_axes.map (fun i2 => (unravel full r).getD i2 0))
          * (axSizes full (keptAxes full.length mesh_axes)).prod
          + ravel (axSizes full (keptAxes full.length mesh_axes))
              ((keptAxes full.length mesh_axes).map
                (fun i2 => (unravel full r).getD i2 0)))).getD
        (posOf i (moveaxisFrontPerm full.length mesh_axes)) 0)) = r
  rw [groupEntry_split hnd hax (ravel_lt hvg) (ravel_lt hvt)]
  rw [unravel_ravel hvg, unravel_ravel hvt]
  have hcmap : (List.range full.length).map (fun i =>
      ((mesh_axes.map (fun i2 => (unravel full r).getD i2 0))
        ++ ((keptAxes full.length mesh_axes).map
            (fun i2 => (unravel full r).getD i2 0))).getD
        (posOf i (moveaxisFrontPerm full.length mesh_axes)) 0)
      = unravel full r := by
    apply List.ext_get
    · rw [List.length_map, List.length_range, unravel_length]
    · intro j h1 h2
      have hjn : j < full.length := by rwa [List.length_map, List.length_range] at h1
      have hjr : j < (List.range full.length).length := by rwa [List.length_range]
      rw [get_map_eq _ _ j h1 hjr]
      have hgr : (List.range full.length).get ⟨j, hjr⟩ = j := by
        rw [List.get_eq_getElem, List.getElem_range]
      rw [hgr]
      by_cases hjm : j ∈ mesh_axes
      · rw [moveaxisFrontPerm, posOf_append_left hjm]
        have hpos : posOf j mesh_axes < mesh_axes.length := posOf_lt_length hjm
        rw [getD_append_lt (by rw [List.length_map]; exact hpos) 0,
          getD_map (fun i2 => (unravel full r).getD i2 0) hpos 0 0, getD_posOf hjm,
          getD_eq_get _ 0 h2]
      · have hjk : j ∈ keptAxes full.length mesh_axes := mem_keptAxes.2 ⟨hjn, hjm⟩
        rw [moveaxisFrontPerm, posOf_append_right hjm]
        have hpos : posOf j (keptAxes full.length mesh_axes)
            < (keptAxes full.length mesh_axes).length := posOf_lt_length hjk
        rw [show mesh_axes.length = (mesh_axes.map
            (fun i2 => (unravel full r).getD i2 0)).length from
          (List.length_map _ _).symm]
        rw [getD_append_add,
          getD_map (fun i2 => (unravel full r).getD i2 0) hpos 0 0, getD_posOf hjk,
          getD_eq_get _ 0 h2]
  rw [hcmap]
  exact ravel_unravel hr

theorem axis_groups_partition_core {nrep : Nat} {mesh_spec mesh_axes : List Nat}
    (hnd : mesh_axes.Nodup) (hax : ∀ a ∈ mesh_axes, a < mesh_spec.length)
    (h0 : 0 < mesh_spec.prod) (hdvd : mesh_spec.prod ∣ nrep) :
    ∃ groups, _axis_groups nrep mesh_spec mesh_axes = some groups
      ∧ groups.length
          = nrep / (axSizes (mesh_spec ++ [nrep / mesh_spec.prod]) mesh_axes).prod
      ∧ (∀ gp ∈ groups,
          gp.length = (axSizes (mesh_spec ++ [nrep / mesh_spec.prod]) mesh_axes).prod)
      ∧ groups.flatten.Perm (List.range nrep)
      ∧ (∀ gp ∈ groups, ∀ r ∈ gp, ∀ r2 ∈ gp,
          sameOutside (mesh_spec ++ [nrep / mesh_spec.prod]) mesh_axes r r2)
      ∧ (∀ gp ∈ groups, ∀ r ∈ gp, ∀ r2, r2 < nrep →
          sameOutside (mesh_spec ++ [nrep / mesh_spec.prod]) mesh_axes r r2 → r2 ∈ gp) := by
  have h0' : ¬ mesh_spec.prod = 0 := by omega
  have hmod : nrep % mesh_spec.prod = 0 := Nat.mod_eq_zero_of_dvd hdvd
  have haxf : ∀ a ∈ mesh_axes, a < (mesh_spec ++ [nrep / mesh_spec.prod]).length := by
    intro a ha
    rw [List.length_append, List.length_cons, List.length_nil]
    have := hax a ha
    omega
  have hfullprod : (mesh_spec ++ [nrep / mesh_spec.prod]).prod = nrep := by
    rw [List.prod_append, List.prod_cons, List.prod_nil, Nat.mul_one]
    exact Nat.mul_div_cancel' hdvd
  have hA0 : (axSizes (mesh_spec ++ [nrep / mesh_spec.prod]) mesh_axes).prod ≠ 0 := by
    intro hc
    rw [axSizes, List.prod_eq_zero_iff, List.mem_map] at hc
    obtain ⟨i, hi, hzero⟩ := hc
    rw [getD_append_lt (hax i hi) 0] at hzero
    have hmem : mesh_spec.getD i 0 ∈ mesh_spec := by
      rw [getD_eq_get _ 0 (hax i hi)]
      exact List.get_mem _ _ _
    have h02 : (0 : Nat) ∈ mesh_spec := hzero ▸ hmem
    have := List.prod_eq_zero h02
    omega
  have hsplit := spec_prod_split (mesh_spec ++ [nrep / mesh_spec.prod]) mesh_axes hnd haxf
  have hncols : (mesh_spec ++ [nrep / mesh_spec.prod]).prod
      / (axSizes (mesh_spec ++ [nrep / mesh_spec.prod]) mesh_axes).prod
      = (axSizes (mesh_spec ++ [nrep / mesh_spec.prod])
          (keptAxes (mesh_spec ++ [nrep / mesh_spec.prod]).length mesh_axes)).prod := by
    rw [← hsplit]
    exact Nat.mul_div_cancel_left _ (by omega)
  have hgroups := axis_groups_eq mesh_axes h0' hmod
  rw [hncols] at hgroups
  -- the column extraction and recovery facts
  have hcoordk := fun {g t} hg ht =>
    @kept_coords_groupEntry (mesh_spec ++ [nrep / mesh_spec.prod]) mesh_axes hnd haxf g t hg ht
  have hcoordm := fun {g t} hg ht =>
    @mesh_coords_groupEntry (mesh_spec ++ [nrep / mesh_spec.prod]) mesh_axes hnd haxf g t hg ht
  refine ⟨_, hgroups, ?_, ?_, ?_, ?_, ?_⟩
  · rw [List.length_map, List.length_range, ← hncols, hfullprod]
  · intro gp hgp
    rw [List.mem_map] at hgp
    obtain ⟨t, _, hgpt⟩ := hgp
    rw [← hgpt, List.length_map, List.length_range]
  · -- the groups partition the replica ids
    show (((List.range ((axSizes (mesh_spec ++ [nrep / mesh_spec.prod])
        (keptAxes (mesh_spec ++ [nrep / mesh_spec.prod]).length mesh_axes)).prod)).flatMap
      (fun t => (List.range
          (axSizes (mesh_spec ++ [nrep / mesh_spec.prod]) mesh_axes).prod).map
        (fun g => groupEntry (mesh_spec ++ [nrep / mesh_spec.prod]) mesh_axes
          (g * (axSizes (mesh_spec ++ [nrep / mesh_spec.prod])
            (keptAxes (mesh_spec ++ [nrep / mesh_spec.prod]).length mesh_axes)).prod
            + t))))).Perm (List.range nrep)
    have hsub : ((List.range ((axSizes (mesh_spec ++ [nrep / mesh_spec.prod])
        (keptAxes (mesh_spec ++ [nrep / mesh_spec.prod]).length mesh_axes)).prod)).flatMap
        (fun t => (List.range
            (axSizes (mesh_spec ++ [nrep / mesh_spec.prod]) mesh_axes).prod).map
          (fun g => groupEntry (mesh_spec ++ [nrep / mesh_spec.prod]) mesh_axes
            (g * (axSizes (mesh_spec ++ [nrep / mesh_spec.prod])
              (keptAxes (mesh_spec ++ [nrep / mesh_spec.prod]).length mesh_axes)).prod
              + t)))) ⊆ List.range nrep := by
      intro x hx
      rw [List.mem_flatMap] at hx
      obtain ⟨t, ht, hxc⟩ := hx
      rw [List.mem_map] at hxc
      obtain ⟨g, hg, hgx⟩ := hxc
      rw [List.mem_range] at ht hg
      rw [List.mem_range, ← hgx]
      have hlt := (groupEntry_unravel (mesh_spec ++ [nrep / mesh_spec.prod]) mesh_axes hnd haxf
        (groupEntry_lt_of_lt hnd haxf hg ht)).2.1
      omega
    have hinj_col : ∀ t, t < (axSizes (mesh_spec ++ [nrep / mesh_spec.prod])
        (keptAxes (mesh_spec ++ [nrep / mesh_spec.prod]).length mesh_axes)).prod →
        ∀ g1 g2, g1 < (axSizes (mesh_spec ++ [nrep / mesh_spec.prod]) mesh_axes).prod →
        g2 < (axSizes (mesh_spec ++ [nrep / mesh_spec.prod]) mesh_axes).prod →
        groupEntry (mesh_spec ++ [nrep / mesh_spec.prod]) mesh_axes
          (g1 * (axSizes (mesh_spec ++ [nrep / mesh_spec.prod])
            (keptAxes (mesh_spec ++ [nrep / mesh_spec.prod]).length mesh_axes)).prod + t)
        = groupEntry (mesh_spec ++ [nrep / mesh_spec.prod]) mesh_axes
          (g2 * (axSizes (mesh_spec ++ [nrep / mesh_spec.prod])
            (keptAxes (mesh_spec ++ [nrep / mesh_spec.prod]).length mesh_axes)).prod + t)
        → g1 = g2 := by
      intro t ht g1 g2 hg1 hg2 he
      have hm1 := hcoordm hg1 ht
      have hm2 := hcoordm hg2 ht
      rw [he, hm2] at hm1
      rw [← ravel_unravel hg1, ← hm1]
      exact ravel_unravel hg2
    have htval : ∀ t, t < (axSizes (mesh_spec ++ [nrep / mesh_spec.prod])
        (keptAxes (mesh_spec ++ [nrep / mesh_spec.prod]).length mesh_axes)).prod →
        ∀ g, g < (axSizes (mesh_spec ++ [nrep / mesh_spec.prod]) mesh_axes).prod →
        ravel (axSizes (mesh_spec ++ [nrep / mesh_spec.prod])
            (keptAxes (mesh_spec ++ [nrep / mesh_spec.prod]).length mesh_axes))
          ((keptAxes (mesh_spec ++ [nrep / mesh_spec.prod]).length mesh_axes).map
            (fun i => (unravel (mesh_spec ++ [nrep / mesh_spec.prod])
              (groupEntry (mesh_spec ++ [nrep / mesh_spec.prod]) mesh_axes
                (g * (axSizes (mesh_spec ++ [nrep / mesh_spec.prod])
                  (keptAxes (mesh_spec ++ [nrep / mesh_spec.prod]).length
                    mesh_axes)).prod + t))).getD i 0))
          = t := by
      intro t ht g hg
      rw [hcoordk hg ht]
      exact ravel_unravel ht
    have hnodup : ((List.range ((axSizes (mesh_spec ++ [nrep / mesh_spec.prod])
        (keptAxes (mesh_spec ++ [nrep / mesh_spec.prod]).length mesh_axes)).prod)).flatMap
        (fun t => (List.range
            (axSizes (mesh_spec ++ [nrep / mesh_spec.prod]) mesh_axes).prod).map
          (fun g => groupEntry (mesh_spec ++ [nrep / mesh_spec.prod]) mesh_axes
            (g * (axSizes (mesh_spec ++ [nrep / mesh_spec.prod])
              (keptAxes (mesh_spec ++ [nrep / mesh_spec.prod]).length mesh_axes)).prod
              + t)))).Nodup := by
      rw [List.nodup_flatMap]
      constructor
      · intro t htm
        rw [List.mem_range] at htm
        apply List.Nodup.map_on
        · intro g1 hg1 g2 hg2 he
          rw [List.mem_range] at hg1 hg2
          exact hinj_col t htm g1 g2 hg1 hg2 he
        · exact List.nodup_range _
      · rw [List.pairwise_iff_getElem]
        intro i j hi hj hij
        simp only [List.getElem_range]
        rw [List.length_range] at hi hj
        intro x hx1 hx2
        rw [List.mem_map] at hx1 hx2
        obtain ⟨g1, hg1, he1⟩ := hx1
        obtain ⟨g2, hg2, he2⟩ := hx2
        rw [List.mem_range] at hg1 hg2
        have ht1 := htval i hi g1 hg1
        have ht2 := htval j hj g2 hg2
        rw [he1] at ht1
        rw [he2] at ht2
        rw [ht2] at ht1
        omega
    have hlen : ((List.range ((axSizes (mesh_spec ++ [nrep / mesh_spec.prod])
        (keptAxes (mesh_spec ++ [nrep / mesh_spec.prod]).length mesh_axes)).prod)).flatMap
        (fun t => (List.range
            (axSizes (mesh_spec ++ [nrep / mesh_spec.prod]) mesh_axes).prod).map
          (fun g => groupEntry (mesh_spec ++ [nrep / mesh_spec.prod]) mesh_axes
            (g * (axSizes (mesh_spec ++ [nrep / mesh_spec.prod])
              (keptAxes (mesh_spec ++ [nrep / mesh_spec.prod]).length mesh_axes)).prod
              + t)))).length = nrep := by
      rw [List.length_flatMap]
      simp only [Function.comp_def, List.length_map, List.length_range]
      rw [List.map_const', List.length_range, List.sum_replicate, smul_eq_mul,
        Nat.mul_comm, hsplit]
      exact hfullprod
    have hsubperm := List.subperm_of_subset hnodup hsub
    apply List.Subperm.perm_of_length_le hsubperm
    rw [List.length_range, hlen]
  · -- members of one group share all non-collapsed coordinates
    intro gp hgp r hr r2 hr2
    rw [List.mem_map] at hgp
    obtain ⟨t, htm, hgpt⟩ := hgp
    rw [List.mem_range] at htm
    rw [← hgpt] at hr hr2
    rw [List.mem_map] at hr hr2
    obtain ⟨g1, hg1, he1⟩ := hr
    obtain ⟨g2, hg2, he2⟩ := hr2
    rw [List.mem_range] at hg1 hg2
    intro i hi hni
    rw [← he1, ← he2,
      groupEntry_coord_kept hnd haxf hg1 htm i hi hni,
      groupEntry_coord_kept hnd haxf hg2 htm i hi hni]
  · -- a group contains every replica agreeing outside the collapsed axes
    intro gp hgp r hr r2 hr2lt hsame
    rw [List.mem_map] at hgp
    obtain ⟨t, htm, hgpt⟩ := hgp
    rw [List.mem_range] at htm
    rw [← hgpt] at hr ⊢
    rw [List.mem_map] at hr
    obtain ⟨g1, hg1, he1⟩ := hr
    rw [List.mem_range] at hg1
    have hr2full : r2 < (mesh_spec ++ [nrep / mesh_spec.prod]).prod := by
      rwa [hfullprod]
    obtain ⟨hg2, ht2, he2⟩ := groupEntry_surj hnd haxf hr2full
    have hmapeq : (keptAxes (mesh_spec ++ [nrep / mesh_spec.prod]).length mesh_axes).map
        (fun i => (unravel (mesh_spec ++ [nrep / mesh_spec.prod]) r2).getD i 0)
        = (keptAxes (mesh_spec ++ [nrep / mesh_spec.prod]).length mesh_axes).map
          (fun i => (unravel (mesh_spec ++ [nrep / mesh_spec.prod]) r).getD i 0) := by
      apply List.map_congr_left
      intro i hi
      have hmk := mem_keptAxes.1 hi
      exact (hsame i hmk.1 hmk.2).symm
    have htr : ravel (axSizes (mesh_spec ++ [nrep / mesh_spec.prod])
        (keptAxes (mesh_spec ++ [nrep / mesh_spec.prod]).length mesh_axes))
        ((keptAxes (mesh_spec ++ [nrep / mesh_spec.prod]).length mesh_axes).map
          (fun i => (unravel (mesh_spec ++ [nrep / mesh_spec.prod]) r).getD i 0)) = t := by
      rw [← he1, kept_coords_groupEntry hnd haxf hg1 htm]
      exact ravel_unravel htm
    rw [hmapeq, htr] at he2 ht2
    rw [List.mem_map]
    refine ⟨ravel (axSizes (mesh_spec ++ [nrep / mesh_spec.prod]) mesh_axes)
        (mesh_axes.map (fun i =>
          (unravel (mesh_spec ++ [nrep / mesh_spec.prod]) r2).getD i 0)), ?_, he2⟩
    rw [List.mem_range]
    exact hg2

theorem axSizes_append_lt {l1 l2 axes : List Nat} (h : ∀ a ∈ axes, a < l1.length) :
    axSizes (l1 ++ l2) axes = axes.map (fun i => l1.getD i 0) := by
  apply List.map_congr_left
  intro i hi
  exact getD_append_lt (h i hi) 0

/-- C7: for an axis environment whose replica count is a positive exact
multiple of the product of its named-axis sizes, and a chosen axis name
present in the environment (or a tuple of distinct present names), the
groups computed by `axis_groups` partition the replica ids `0..nreps-1`
— their concatenation is a permutation of `range nreps` — into groups
of equal size (the product of the collapsed axis sizes), and each group
consists exactly of the replicas that share every mesh coordinate
(including the trailing pure-replication axis) outside the collapsed
axes: members agree on all such coordinates, and any replica agreeing
with a member belongs to the same group. -/
theorem C7_axis_groups_partition {α : Type} [DecidableEq α] {nreps : Nat}
    {names : List α} {sizes : List Nat} {name : AxisName α}
    (hok : match name with
      | .single a => a ∈ names
      | .tuple as => as.Nodup ∧ ∀ a ∈ as, a ∈ names)
    (hlen : names.length = sizes.length)
    (h0 : 0 < sizes.prod) (hdvd : sizes.prod ∣ nreps) :
    ∃ mesh_axes groups,
      resolveAxes names name = some mesh_axes
      ∧ axis_groups nreps names sizes name = some groups
      ∧ groups.length = nreps / (mesh_axes.map (fun i => sizes.getD i 0)).prod
      ∧ (∀ gp ∈ groups, gp.length = (mesh_axes.map (fun i => sizes.getD i 0)).prod)
      ∧ groups.flatten.Perm (List.range nreps)
      ∧ (∀ gp ∈ groups, ∀ r ∈ gp, ∀ r2 ∈ gp,
          sameOutside (sizes ++ [nreps / sizes.prod]) mesh_axes r r2)
      ∧ (∀ gp ∈ groups, ∀ r ∈ gp, ∀ r2, r2 < nreps →
          sameOutside (sizes ++ [nreps / sizes.prod]) mesh_axes r r2 → r2 ∈ gp) := by
  have hres : ∃ mesh_axes, resolveAxes names name = some mesh_axes
      ∧ mesh_axes.Nodup ∧ ∀ a ∈ mesh_axes, a < sizes.length := by
    cases name with
    | single a =>
      obtain ⟨i, hi⟩ := axis_read_isSome hok
      refine ⟨[i], ?_, List.nodup_singleton i, ?_⟩
      · rw [resolveAxes, hi]
        rfl
      · intro b hb
        have hb2 : b = i := List.mem_singleton.1 hb
        subst hb2
        exact hlen ▸ (axis_read_some hi).1
    | tuple as =>
      obtain ⟨l, hl, hf⟩ := resolveAll_some hok.2
      exact ⟨l, hl, resolved_nodup hf hok.1,
        fun a ha => hlen ▸ resolved_bounds hf a ha⟩
  obtain ⟨mesh_axes, hresq, hnd, hax⟩ := hres
  obtain ⟨groups, hgr, hlen2, hsz, hperm, hsame, hback⟩ :=
    @axis_groups_partition_core nreps sizes mesh_axes hnd hax h0 hdvd
  have hconv2 : axSizes (sizes ++ [nreps / sizes.prod]) mesh_axes
      = mesh_axes.map (fun i => sizes.getD i 0) := axSizes_append_lt hax
  rw [hconv2] at hlen2 hsz
  refine ⟨mesh_axes, groups, hresq, ?_, hlen2, hsz, hperm, hsame, hback⟩
  rw [axis_groups, hresq]
  exact hgr

/-- C7 (witness): one named axis of size 2 in a 4-replica environment:
the two groups `[0, 2]` and `[1, 3]` partition the replicas. -/
theorem C7_witness :
    ∃ mesh_axes groups,
      resolveAxes [0] (AxisName.single 0) = some mesh_axes
      ∧ axis_groups 4 [0] [2] (AxisName.single 0) = some groups
      ∧ groups.length = 4 / (mesh_axes.map (fun i => List.getD [2] i 0)).prod
      ∧ (∀ gp ∈ groups, gp.length = (mesh_axes.map (fun i => List.getD [2] i 0)).prod)
      ∧ groups.flatten.Perm (List.range 4)
      ∧ (∀ gp ∈ groups, ∀ r ∈ gp, ∀ r2 ∈ gp,
          sameOutside ([2] ++ [4 / List.prod [2]]) mesh_axes r r2)
      ∧ (∀ gp ∈ groups, ∀ r ∈ gp, ∀ r2, r2 < 4 →
          sameOutside ([2] ++ [4 / List.prod [2]]) mesh_axes r r2 → r2 ∈ gp) :=
  @C7_axis_groups_partition Nat _ 4 [0] [2] (AxisName.single 0)
    (by decide) rfl (by decide) (by decide)

end XlaSpec
